import Mathlib

/-!
Verification development for the entity-extraction / topic-clustering /
thread-detection core of `ai_news_scraper.py`.

The Python code is shallowly embedded as executable Lean definitions:

* Python `set`s of strings are modelled as duplicate-free `List String`
  (the list order stands in for the set's iteration order; all properties
  proved about sets are membership properties, which do not depend on it).
* Python `datetime` timestamps are modelled as `Option ℤ`, in milliseconds
  on an absolute scale (exact for ISO-8601 timestamps); `none` models an
  unparseable / missing `created_at` (the result of the
  `try: fromisoformat ... except: dt = None` pattern), and the sort key
  `x if x else datetime.min` is modelled by an order on `Option ℤ` in
  which `none` is the bottom element. The float computation
  `abs((dt - prev_dt).total_seconds() / 60) <= threshold` agrees with the
  exact integer test `|b - a| ≤ threshold * 60000` (milliseconds) for
  every microsecond-resolution timestamp pair: the float rounding error
  (relative, about `1e-16`) is far below the distance from any
  representable off-boundary difference to the threshold.
* Python `sorted` / `list.sort` (a stable sort; `reverse=True` preserves
  the relative order of equal keys) is modelled by the structural stable
  insertion sort `stableSort` below, with the comparator expressing the
  (possibly reversed) key order.
* Exceptions are modelled with `Option`: `cluster_by_topic` can actually
  raise `TypeError` (at `set.intersection(*[])` when an entity's index
  list has been fully claimed and `min_cluster_size = 0`), so its
  embedding returns `none` exactly on that path. `detect_threads` can
  also raise `TypeError`: `fromisoformat` parses a date-only `created_at`
  offset-naive while the sort-key sentinel
  `datetime.min.replace(tzinfo=timezone.utc)` is offset-aware, and Python
  refuses to compare or subtract the two; the single-scale `Option ℤ`
  model cannot express this, so a refinement (`XPostTz`,
  `detectThreadsTz`) carries the awareness flag of every parsed timestamp
  and returns `none` exactly where `detect_threads` would raise.
* Texts handled by the scraper are ASCII; `Char.toLower` and the ASCII
  character classes below coincide with Python's `str.lower`, `\b`, `\s`,
  `[A-Z]`, `[a-z]` on such texts.
-/

/-! ## Character classes and primitive string matching -/

/-- Python regex word character (`\b` boundaries): letter, digit or underscore. -/
def isWordChar (c : Char) : Bool :=
  c.isAlphanum || c = '_'

/-- ASCII uppercase letter, the `[A-Z]` class of the proper-noun regex. -/
def isAsciiUpper (c : Char) : Bool :=
  'A' ≤ c && c ≤ 'Z'

/-- ASCII lowercase letter, the `[a-z]` class of the proper-noun regex. -/
def isAsciiLower (c : Char) : Bool :=
  'a' ≤ c && c ≤ 'z'

/-- Python regex whitespace `\s`. -/
def isWs (c : Char) : Bool :=
  c = ' ' || c = '\t' || c = '\n' || c = '\r' || c = '\x0b' || c = '\x0c'

/-- `pattern in text` for Python strings: `p` occurs as a contiguous substring of `t`. -/
def substrMatch (p t : List Char) : Bool :=
  (List.range (t.length + 1)).any (fun i => p.isPrefixOf (t.drop i))

/-- The character at position `i` of `t` is absent (out of range) or not a word
character; this is the `\b` test on either side of an alphanumeric pattern. -/
def nonWordAt (t : List Char) (i : Nat) : Bool :=
  !isWordChar (t.getD i ' ')

/-- `re.search(r'\b' + re.escape(p) + r'\b', t)` for a pattern `p` that starts and
ends with a word character (every short dictionary form does): `p` occurs at some
position whose neighbours on both sides are not word characters. -/
def boundaryMatch (p t : List Char) : Bool :=
  (List.range (t.length + 1)).any
    (fun i => p.isPrefixOf (t.drop i) && (i = 0 || nonWordAt t (i - 1)) &&
      nonWordAt t (i + p.length))

/-- One dictionary lookup of `extract_entities`: forms of length ≤ 3 are matched
with `\b` word boundaries, longer forms as plain substrings (`pattern in text_lower`). -/
def matchesEntry (tl : List Char) (p : String) : Bool :=
  if p.length ≤ 3 then boundaryMatch p.toList tl else substrMatch p.toList tl

/-! ## The dictionaries (`KNOWN_ENTITIES`, stop words, generic topics)

`KNOWN_ENTITIES` is a Python dict literal; the key `'mistral'` is written twice
in the source with the same value `'Mistral'`, so the dict holds it once, at its
first position. Insertion order of the literal is preserved below. -/

def knownEntities : List (String × String) := [
  ("openai", "OpenAI"),
  ("anthropic", "Anthropic"),
  ("google", "Google"),
  ("deepmind", "DeepMind"),
  ("meta", "Meta"),
  ("microsoft", "Microsoft"),
  ("nvidia", "NVIDIA"),
  ("apple", "Apple"),
  ("amazon", "Amazon"),
  ("aws", "AWS"),
  ("hugging face", "Hugging Face"),
  ("huggingface", "Hugging Face"),
  ("stability ai", "Stability AI"),
  ("cohere", "Cohere"),
  ("mistral", "Mistral"),
  ("inflection", "Inflection"),
  ("character ai", "Character AI"),
  ("elevenlabs", "ElevenLabs"),
  ("eleven labs", "ElevenLabs"),
  ("runway", "Runway"),
  ("midjourney", "Midjourney"),
  ("adobe", "Adobe"),
  ("salesforce", "Salesforce"),
  ("ibm", "IBM"),
  ("intel", "Intel"),
  ("amd", "AMD"),
  ("tesla", "Tesla"),
  ("xai", "xAI"),
  ("perplexity", "Perplexity"),
  ("gpt-4", "GPT-4"),
  ("gpt-5", "GPT-5"),
  ("gpt4", "GPT-4"),
  ("gpt5", "GPT-5"),
  ("chatgpt", "ChatGPT"),
  ("claude", "Claude"),
  ("gemini", "Gemini"),
  ("llama", "Llama"),
  ("copilot", "Copilot"),
  ("dall-e", "DALL-E"),
  ("dalle", "DALL-E"),
  ("sora", "Sora"),
  ("stable diffusion", "Stable Diffusion"),
  ("flux", "Flux"),
  ("whisper", "Whisper"),
  ("codex", "Codex"),
  ("claude code", "Claude Code"),
  ("cursor", "Cursor"),
  ("replit", "Replit"),
  ("github copilot", "GitHub Copilot"),
  ("xcode", "Xcode"),
  ("sam altman", "Sam Altman"),
  ("dario amodei", "Dario Amodei"),
  ("demis hassabis", "Demis Hassabis"),
  ("yann lecun", "Yann LeCun"),
  ("andrej karpathy", "Andrej Karpathy"),
  ("karpathy", "Andrej Karpathy"),
  ("ilya sutskever", "Ilya Sutskever"),
  ("elon musk", "Elon Musk"),
  ("sundar pichai", "Sundar Pichai"),
  ("satya nadella", "Satya Nadella"),
  ("jensen huang", "Jensen Huang"),
  ("mark zuckerberg", "Mark Zuckerberg"),
  ("funding", "Funding & Investment"),
  ("investment", "Funding & Investment"),
  ("raises", "Funding & Investment"),
  ("valuation", "Funding & Investment"),
  ("series a", "Funding & Investment"),
  ("series b", "Funding & Investment"),
  ("series c", "Funding & Investment"),
  ("ipo", "IPO"),
  ("regulation", "AI Regulation"),
  ("safety", "AI Safety"),
  ("alignment", "AI Alignment"),
  ("misalignment", "AI Alignment"),
  ("ethics", "AI Ethics"),
  ("bias", "AI Ethics"),
  ("autonomous", "Autonomous Systems"),
  ("robotics", "Robotics"),
  ("self-driving", "Autonomous Vehicles"),
  ("autonomous vehicle", "Autonomous Vehicles"),
  ("healthcare", "AI in Healthcare"),
  ("medical", "AI in Healthcare"),
  ("drug discovery", "AI in Healthcare"),
  ("agents", "AI Agents"),
  ("agentic", "AI Agents"),
  ("reasoning", "AI Reasoning"),
  ("chain of thought", "AI Reasoning"),
  ("multimodal", "Multimodal AI"),
  ("vision", "Computer Vision"),
  ("voice", "Voice AI"),
  ("speech", "Voice AI"),
  ("text-to-speech", "Voice AI"),
  ("video", "Video AI"),
  ("text-to-video", "Video AI"),
  ("training", "Model Training"),
  ("fine-tuning", "Model Training"),
  ("inference", "AI Inference"),
  ("deployment", "AI Deployment"),
  ("open source", "Open Source AI"),
  ("open-source", "Open Source AI")]

/-- The stop-word list of the proper-noun heuristic, copied verbatim from the
source (it repeats `'just'`, `'most'` and `'view'`; harmless for membership). -/
def stopWords : List String := [
  "the", "this", "that", "with", "from", "have", "been", "will", "what", "when", "where",
  "which", "would", "could", "should", "about", "after", "before", "being", "between",
  "both", "each", "more", "most", "other", "some", "such", "than", "then", "these", "they",
  "through", "under", "very", "just", "also", "into", "over", "only", "well", "back",
  "even", "still", "first", "last", "long", "great", "little", "much", "never", "now",
  "old", "see", "way", "who", "come", "make", "like", "time", "just", "know", "take",
  "people", "year", "good", "give", "day", "most", "new", "want", "because", "any",
  "find", "here", "thing", "think", "say", "she", "two", "how", "our", "work", "world",
  "life", "hand", "part", "child", "eye", "woman", "place", "case", "week", "company",
  "system", "program", "question", "government", "number", "night", "point", "home",
  "water", "room", "mother", "area", "money", "story", "fact", "month", "different",
  "right", "study", "book", "word", "business", "issue", "side", "kind", "head", "house",
  "service", "friend", "father", "power", "hour", "game", "line", "end", "member", "law",
  "car", "city", "community", "name", "president", "team", "minute", "idea", "body",
  "information", "today", "read", "thread", "finding", "view", "view"]

/-- The "generic" topic labels that `cluster_by_topic` avoids as display topics. -/
def genericTopics : List String :=
  ["Funding & Investment", "AI Safety", "AI Agents", "Model Training", "AI Reasoning"]

/-! ## Proper-noun heuristic

`re.findall(r'\b([A-Z][a-z]+(?:\s+[A-Z][a-z]+)*)\b', text)`, the scan of the
original-case text for capitalized word sequences, implemented by the standard
leftmost / greedy-with-backtracking semantics of `re`:

* a candidate match may start only at an `[A-Z]` character not preceded by a
  word character (the leading `\b`);
* the first word is `[A-Z]` followed by a maximal nonempty `[a-z]+` run;
* further words (`\s+[A-Z][a-z]+` segments) are taken greedily;
* the trailing `\b` holds after the last word iff the next character is absent
  or not a word character; if it fails, the regex backtracks by dropping the
  final segment (after which the next character is whitespace, so the boundary
  holds); if there is no segment to drop, there is no match at this start;
* scanning resumes right after the matched text.
-/

/-- Parse `[A-Z][a-z]+` at the head of `l`: the matched word and the rest. -/
def parseUnit (l : List Char) : Option (List Char × List Char) :=
  match l with
  | [] => none
  | c :: rest =>
    if isAsciiUpper c then
      let lows := rest.takeWhile isAsciiLower
      if lows.isEmpty then none else some (c :: lows, rest.drop lows.length)
    else none

/-- Greedily parse `(?:\s+[A-Z][a-z]+)*` segments; returns the segments (each
one whitespace run followed by a word) and the remaining text. The fuel is an
upper bound on the number of steps; `rest.length` always suffices because every
step consumes at least one character. -/
def chainSegs (fuel : Nat) (rest : List Char) : List (List Char) × List Char :=
  match fuel with
  | 0 => ([], rest)
  | fuel + 1 =>
    let ws := rest.takeWhile isWs
    if ws.isEmpty then ([], rest)
    else
      match parseUnit (rest.drop ws.length) with
      | none => ([], rest)
      | some (u, rest') =>
        let (segs, rem) := chainSegs fuel rest'
        ((ws ++ u) :: segs, rem)

/-- The trailing `\b` of the proper-noun regex: the next character is absent or
not a word character. -/
def boundaryAfterOk (rem : List Char) : Bool :=
  match rem with
  | [] => true
  | c :: _ => !isWordChar c

/-- The `re.findall` scan. `prevWord` records whether the previous character is
a word character (for the leading `\b`); the fuel bounds the number of scan
steps, and `t.length + 1` always suffices because every step strictly shortens
the remaining text. -/
def scanNouns (fuel : Nat) (t : List Char) (prevWord : Bool) : List (List Char) :=
  match fuel with
  | 0 => []
  | fuel + 1 =>
    match t with
    | [] => []
    | c :: rest =>
      if isAsciiUpper c && !prevWord then
        match parseUnit (c :: rest) with
        | some (u1, rest1) =>
          let (segs, rem) := chainSegs rest1.length rest1
          if boundaryAfterOk rem then
            (u1 ++ segs.flatten) :: scanNouns fuel rem true
          else
            match segs with
            | [] => scanNouns fuel rest (isWordChar c)
            | _ :: _ =>
              (u1 ++ segs.dropLast.flatten) :: scanNouns fuel (segs.getLastD [] ++ rem) true
        | none => scanNouns fuel rest (isWordChar c)
      else scanNouns fuel rest (isWordChar c)

/-- All proper-noun candidates of a text, as strings. -/
def properNouns (t : List Char) : List String :=
  (scanNouns (t.length + 1) t false).map String.mk

/-! ## `extract_entities` -/

/-- Adding an element to a Python `set` modelled as a duplicate-free list. -/
def setInsert (acc : List String) (e : String) : List String :=
  if acc.contains e then acc else acc ++ [e]

/-- `extract_entities(text)`: dictionary matches (case-insensitively, with word
boundaries for forms of length ≤ 3) plus the proper-noun heuristic (tokens
longer than 3 characters that are not stop words), collected into a set. -/
def extractEntities (text : String) : List String :=
  if text = "" then []
  else
    let tl := text.toList.map Char.toLower
    let dictFound := knownEntities.foldl
      (fun acc pc => if matchesEntry tl pc.1 then setInsert acc pc.2 else acc) []
    (properNouns text.toList).foldl
      (fun acc n =>
        if 3 < n.length && !stopWords.contains (String.mk (n.toList.map Char.toLower)) then
          setInsert acc n
        else acc)
      dictFound

/-! ## Normalized items and `normalize_item` -/

/-- The uniform item shape produced by `normalize_item` (the opaque `original`
back-reference, used only by the renderer, is not modelled). `entities` models
the Python `set` as a duplicate-free list. -/
structure NItem where
  kind : String
  title : String
  text : String
  url : String
  source : String
  entities : List String
deriving DecidableEq

/-- A raw article record `{headline, description, url, source}`. -/
structure Article where
  headline : String
  description : String
  url : String
  source : String

/-- A raw X post. `createdAt` is the parsed `created_at` timestamp in
milliseconds (`none` when the field is missing or `datetime.fromisoformat`
raises). This single-scale view identifies offset-naive and offset-aware
datetimes; the refinement `XPostTz` below keeps them apart. -/
structure XPost where
  username : String
  text : String
  createdAt : Option ℤ
  url : String
  likeCount : Nat
  retweetCount : Nat
  replyCount : Nat
deriving DecidableEq

/-- The title truncation rule: `text[:100] + '...' if len(text) > 100 else text`. -/
def truncTitle (s : String) : String :=
  if 100 < s.length then s.take 100 ++ "..." else s

/-- `normalize_item(item, 'article')`. -/
def normalizeArticle (a : Article) : NItem :=
  let text := a.headline ++ " " ++ a.description
  ⟨"article", a.headline, text, a.url, a.source, extractEntities text⟩

/-- `normalize_item(item, 'x_post')`. -/
def normalizePost (p : XPost) : NItem :=
  ⟨"x_post", truncTitle p.text, p.text, p.url, "@" ++ p.username, extractEntities p.text⟩

/-- A raw X thread record `{'is_thread': True, 'posts': [...], 'username': ...}`. -/
structure ThreadRecord where
  username : String
  posts : List XPost

/-- `normalize_item(item, 'x_thread')`: the text is the space-joined
concatenation of the posts' texts; title and url come from the first post when
there is one, else `''` and the `'#'` placeholder. -/
def normalizeThread (t : ThreadRecord) : NItem :=
  let combined := String.intercalate " " (t.posts.map XPost.text)
  let firstText := ((t.posts.head?).map XPost.text).getD ""
  ⟨"x_thread", truncTitle firstText, combined,
    ((t.posts.head?).map XPost.url).getD "#", "@" ++ t.username,
    extractEntities combined⟩

/-! ## Stable sorting

Python's `sorted` / `list.sort` is a stable sort (with `reverse=True` it is a
stable sort for the reversed key order: equal keys keep their original relative
order). For a comparator that is a total preorder, the stably sorted
permutation of a list is unique, so the structural stable insertion sort below
is extensionally the model of Python's sort; being structural, it also
evaluates inside the kernel. `sInsert le a l` places `a` after every element
`b` of `l` with `le b a` — in particular after every element equal to `a`. -/

def sInsert (le : α → α → Bool) (a : α) : List α → List α
  | [] => [a]
  | b :: l => if le b a then b :: sInsert le a l else a :: b :: l

/-- Stable sort by the comparator `le`: insert the elements left to right. -/
def stableSort (le : α → α → Bool) (l : List α) : List α :=
  l.foldl (fun acc a => sInsert le a acc) []

/-! ## `cluster_by_topic`

The embedding returns `Option (List TopicCluster)`: `none` models the
`TypeError` that `set.intersection(*[])` raises when an entity is processed
whose index list has been entirely claimed and `min_cluster_size ≤ 0` lets the
empty list through the size guard. On every other path the code is total. -/

/-- An output cluster `{'topic': ..., 'entities': ..., 'items': ...}`. -/
structure TopicCluster where
  topic : Option String
  entities : List String
  items : List NItem
deriving DecidableEq

/-- Used where an index is looked up (`items[i]`); all indices produced by the
algorithm are in range, so this default is never actually read. -/
def dummyItem : NItem :=
  ⟨"", "", "", "", "", []⟩

/-- `entity_to_items[entity].append(i)` on an insertion-ordered dict modelled
as an association list: append `i` to the entry of `e`, creating the entry at
the tail (dict insertion order) if absent. -/
def addIndex (m : List (String × List Nat)) (e : String) (i : Nat) :
    List (String × List Nat) :=
  match m with
  | [] => [(e, [i])]
  | (k, l) :: rest =>
    if k = e then (k, l ++ [i]) :: rest else (k, l) :: addIndex rest e i

/-- Index one item: `for entity in item['entities']: entity_to_items[entity].append(i)`. -/
def indexItem (m : List (String × List Nat)) (i : Nat) (es : List String) :
    List (String × List Nat) :=
  es.foldl (fun m e => addIndex m e i) m

/-- The inverted index `entity -> list of item indices`, built over
`enumerate(items)` in order. -/
def buildEntityIndex (items : List NItem) : List (String × List Nat) :=
  items.enum.foldl (fun m p => indexItem m p.1 p.2.entities) []

/-- Python `set` intersection of two entity sets (keeps the first list's order). -/
def listInter (s t : List String) : List String :=
  s.filter (fun e => t.contains e)

/-- `set.intersection(*list_of_sets)`: `none` on the empty list (the Python
call raises `TypeError` there), else the fold of binary intersections. -/
def interAll : List (List String) → Option (List String)
  | [] => none
  | s :: rest => some (rest.foldl listInter s)

/-- Choose the display topic: the first shared entity that is not a generic
label, defaulting to the seed entity. -/
def pickTopic (shared : List String) (seed : String) : String :=
  ((shared.find? (fun e => !genericTopics.contains e)).getD seed)

/-- One iteration of the main clustering loop, for entity `p.1` with index list
`p.2`, acting on the accumulated `(clusters, used_items)` state. -/
def clusterStep (items : List NItem) (minSize : Nat)
    (acc : Option (List TopicCluster × List Nat)) (p : String × List Nat) :
    Option (List TopicCluster × List Nat) :=
  match acc with
  | none => none
  | some (cs, used) =>
    let available := p.2.filter (fun i => !used.contains i)
    if available.length < minSize then some (cs, used)
    else
      let clusterItems := available.map (fun i => items.getD i dummyItem)
      match interAll (clusterItems.map NItem.entities) with
      | none => none
      | some inter =>
        let shared := if inter.isEmpty then [p.1] else inter
        some (cs ++ [⟨some (pickTopic shared p.1), shared, clusterItems⟩],
          used ++ available)

/-- Lexicographic `≤` on character lists by code point; Python compares
strings exactly this way. -/
def charListLe : List Char → List Char → Bool
  | [], _ => true
  | _ :: _, [] => false
  | a :: as, b :: bs =>
    if a < b then true else if b < a then false else charListLe as bs

/-- Python string `<=`: lexicographic comparison by code point. -/
def strLe (s t : String) : Bool :=
  charListLe s.toList t.toList

/-- The final sort key comparator: Python sorts by
`(-len(c['items']), c['topic'] or 'zzz')`, so `c` may precede `d` iff `c` has
strictly more items, or equally many and a `≤` topic key (missing topics read
as the sentinel `'zzz'`). -/
def clusterLe (c d : TopicCluster) : Bool :=
  if c.items.length = d.items.length then
    strLe (c.topic.getD "zzz") (d.topic.getD "zzz")
  else decide (d.items.length < c.items.length)

/-- `cluster_by_topic(items, min_cluster_size)`. -/
def clusterByTopic (items : List NItem) (minSize : Nat) : Option (List TopicCluster) :=
  if items.isEmpty then some []
  else
    match (stableSort (fun a b => decide (b.2.length ≤ a.2.length))
        (buildEntityIndex items)).foldl (clusterStep items minSize) (some ([], [])) with
    | none => none
    | some (cs, used) =>
      some (stableSort clusterLe
        (cs ++ (items.enum.filter (fun p => !used.contains p.1)).map
          (fun p => (⟨none, p.2.entities, [p.2]⟩ : TopicCluster))))

/-! ## `detect_threads` -/

/-- An element of the result list of `detect_threads`: a standalone post, or a
thread dict `{'is_thread': True, 'posts': ..., 'username': ...}`. -/
inductive XItem where
  | post (p : XPost)
  | thread (posts : List XPost) (username : String)
deriving DecidableEq

/-- The sort key `x if x else datetime.min`: `none` (unparseable / missing
timestamp) compares below every real timestamp, like `datetime.min`. This is
the `≤` test on such keys. -/
def keyLe : Option ℤ → Option ℤ → Bool
  | none, _ => true
  | some _, none => false
  | some a, some b => decide (a ≤ b)

/-- `by_author[post['username']].append(...)` on an insertion-ordered dict. -/
def groupAdd (m : List (String × List XPost)) (p : XPost) :
    List (String × List XPost) :=
  match m with
  | [] => [(p.username, [p])]
  | (u, l) :: rest =>
    if u = p.username then (u, l ++ [p]) :: rest else (u, l) :: groupAdd rest p

/-- Partition the posts by author, preserving input order within each author
and first-encounter order of authors. -/
def groupByAuthor (posts : List XPost) : List (String × List XPost) :=
  posts.foldl groupAdd []

/-- The join test of the run walk: both timestamps parsed and
`abs((dt - prev_dt).total_seconds() / 60) <= time_threshold_minutes`, in exact
integer form: the absolute difference in milliseconds is at most the threshold
(in minutes) times `60000` (`(b - a).natAbs` is `|b - a|`, see
`joinsRun_eq_true_iff`). -/
def joinsRun (th : ℤ) (prev cur : Option ℤ) : Bool :=
  match prev, cur with
  | some a, some b => decide (((b - a).natAbs : ℤ) ≤ th * 60000)
  | _, _ => false

/-- Close the current run: a run of ≥ 2 posts becomes a thread, a run of one a
standalone post; either is tagged with the run's first timestamp. The run is
never empty when this is called (the `[]` case yields nothing). -/
def closeRun (u : String) : List XPost → List (Option ℤ × XItem)
  | [] => []
  | p :: rest =>
    match rest with
    | [] => [(p.createdAt, XItem.post p)]
    | _ :: _ => [(p.createdAt, XItem.thread (p :: rest) u)]

/-- The walk over an author's remaining time-sorted posts, carrying the open
run (nonempty, in chronological order). A post within threshold of the run's
last post joins; otherwise the run is closed and a new run starts with the
breaking post; the final run is closed at the end. -/
def threadWalk (th : ℤ) (u : String) : List XPost → List XPost → List (Option ℤ × XItem)
  | run, [] => closeRun u run
  | run, p :: rest =>
    match run.getLast? with
    | none => threadWalk th u [p] rest
    | some prev =>
      if joinsRun th prev.createdAt p.createdAt then
        threadWalk th u (run ++ [p]) rest
      else
        closeRun u run ++ threadWalk th u [p] rest

/-- Process one author's posts: sort them ascending by timestamp (stable;
unparseable timestamps sort first, as `datetime.min`), then either emit the
single post directly or walk for threads starting from the earliest post. -/
def authorItems (th : ℤ) (u : String) (group : List XPost) : List (Option ℤ × XItem) :=
  match stableSort (fun a b => keyLe a.createdAt b.createdAt) group with
  | [] => []
  | [p] => [(p.createdAt, XItem.post p)]
  | p :: rest => threadWalk th u [p] rest

/-- `detect_threads(posts, time_threshold_minutes)`: group by author, detect
runs, then sort every emitted item by its tag, most recent first (stable), and
drop the tags. -/
def detectThreads (posts : List XPost) (th : ℤ) : List XItem :=
  if posts.isEmpty then []
  else
    (stableSort (fun a b => keyLe b.1 a.1)
      ((groupByAuthor posts).flatMap (fun g => authorItems th g.1 g.2))).map Prod.snd

/-! ## `detect_threads` with the offset-awareness of timestamps made explicit

`datetime.fromisoformat` returns an offset-naive datetime when the
`created_at` string carries no UTC offset — notably the date-only
`createdAtDate` form `YYYY-MM-DD` that the scraper also feeds through — and
an offset-aware one for the `Z` / `+00:00` forms. Python raises `TypeError`
whenever a naive and an aware datetime are compared or subtracted, and the
sort-key sentinel `datetime.min.replace(tzinfo=timezone.utc)` is aware. The
single-scale model above cannot represent that error path, so the refinement
below carries an awareness flag on every parsed timestamp and returns `none`
exactly where `detect_threads` would raise an uncaught `TypeError`. Which
pairs a sort compares is implementation-specific, but both Timsort and the
insertion sort below keep the already-sorted part mutually comparable, so
both raise exactly when the key list mixes naive and aware values; on the
two-element counterexample input below they perform the identical single
comparison. -/

/-- A parsed Python `datetime`: millisecond value and whether it is
offset-aware (`tzinfo` present). -/
structure PDt where
  ms : ℤ
  aware : Bool
deriving DecidableEq

/-- `datetime.min.replace(tzinfo=timezone.utc)`, the offset-aware sort-key
sentinel used for unparsed timestamps: 0001-01-01T00:00:00+00:00, which is
`62135596800000` ms before the epoch. -/
def dtMin : PDt := ⟨-62135596800000, true⟩

/-- Python `a <= b` on datetimes: `TypeError` (`none`) on a naive/aware pair,
the millisecond comparison otherwise. -/
def pdtLe (a b : PDt) : Option Bool :=
  if a.aware = b.aware then some (decide (a.ms ≤ b.ms)) else none

/-- An X post with the awareness of its parsed timestamp retained: `none`
models an unparseable or missing `created_at`, `some d` the parsed datetime
with its awareness flag. -/
structure XPostTz where
  username : String
  text : String
  createdAt : Option PDt
  url : String
  likeCount : Nat
  retweetCount : Nat
  replyCount : Nat
deriving DecidableEq

/-- Forget the awareness flag: the single-scale view of a post. -/
def projPost (p : XPostTz) : XPost :=
  ⟨p.username, p.text, p.createdAt.map PDt.ms, p.url, p.likeCount,
    p.retweetCount, p.replyCount⟩

/-- Result items of `detect_threads` over awareness-carrying posts. -/
inductive XItemTz where
  | post (p : XPostTz)
  | thread (posts : List XPostTz) (username : String)
deriving DecidableEq

/-- Forget the awareness flags of an item. -/
def projItem : XItemTz → XItem
  | .post p => .post (projPost p)
  | .thread ps u => .thread (ps.map projPost) u

/-- Forget the awareness flag of a sort tag. -/
def projTag : Option PDt → Option ℤ :=
  Option.map PDt.ms

/-- Forget the awareness flags of a tagged item. -/
def projPair (x : Option PDt × XItemTz) : Option ℤ × XItem :=
  (projTag x.1, projItem x.2)

/-- The sort key `x if x else datetime.min.replace(tzinfo=timezone.utc)`,
compared with the fallible datetime order. -/
def keyLeTz (a b : Option PDt) : Option Bool :=
  pdtLe (a.getD dtMin) (b.getD dtMin)

/-- Fallible stable insertion: `none` as soon as a key comparison raises. -/
def sInsertTz (le : α → α → Option Bool) (a : α) : List α → Option (List α)
  | [] => some [a]
  | b :: l =>
    match le b a with
    | none => none
    | some true => (sInsertTz le a l).map (fun r => b :: r)
    | some false => some (a :: b :: l)

/-- Fallible stable sort: raises iff some performed comparison raises (the
already-inserted part is always mutually comparable, so mixed naive/aware
keys always force a raising comparison, as in Python). -/
def stableSortTz (le : α → α → Option Bool) (l : List α) : Option (List α) :=
  l.foldl (fun acc a => acc.bind (sInsertTz le a)) (some [])

/-- `by_author[post['username']].append(...)` over awareness-carrying posts. -/
def groupAddTz (m : List (String × List XPostTz)) (p : XPostTz) :
    List (String × List XPostTz) :=
  match m with
  | [] => [(p.username, [p])]
  | (u, l) :: rest =>
    if u = p.username then (u, l ++ [p]) :: rest else (u, l) :: groupAddTz rest p

/-- Partition by author, preserving orders (exactly as `groupByAuthor`). -/
def groupByAuthorTz (posts : List XPostTz) : List (String × List XPostTz) :=
  posts.foldl groupAddTz []

/-- The join test with the exception path explicit: when either timestamp is
unparsed, the `if dt and prev_dt` guard short-circuits (no join, nothing
raised); when both are parsed, `dt - prev_dt` raises `TypeError` (`none`) on
a naive/aware pair and otherwise yields the inclusive threshold test. -/
def joinsRunTz (th : ℤ) (prev cur : Option PDt) : Option Bool :=
  match prev, cur with
  | some a, some b =>
    if a.aware = b.aware then
      some (decide (((b.ms - a.ms).natAbs : ℤ) ≤ th * 60000))
    else none
  | _, _ => some false

/-- `closeRun` over awareness-carrying posts. -/
def closeRunTz (u : String) : List XPostTz → List (Option PDt × XItemTz)
  | [] => []
  | p :: rest =>
    match rest with
    | [] => [(p.createdAt, XItemTz.post p)]
    | _ :: _ => [(p.createdAt, XItemTz.thread (p :: rest) u)]

/-- `threadWalk` over awareness-carrying posts; `none` when the subtraction
in the join test raises. -/
def threadWalkTz (th : ℤ) (u : String) :
    List XPostTz → List XPostTz → Option (List (Option PDt × XItemTz))
  | run, [] => some (closeRunTz u run)
  | run, p :: rest =>
    match run.getLast? with
    | none => threadWalkTz th u [p] rest
    | some prev =>
      match joinsRunTz th prev.createdAt p.createdAt with
      | none => none
      | some true => threadWalkTz th u (run ++ [p]) rest
      | some false =>
        (threadWalkTz th u [p] rest).map (fun r => closeRunTz u run ++ r)

/-- `authorItems` over awareness-carrying posts; `none` when the per-author
sort raises. -/
def authorItemsTz (th : ℤ) (u : String) (group : List XPostTz) :
    Option (List (Option PDt × XItemTz)) :=
  match stableSortTz (fun a b => keyLeTz a.createdAt b.createdAt) group with
  | none => none
  | some [] => some []
  | some [p] => some [(p.createdAt, XItemTz.post p)]
  | some (p :: rest) => threadWalkTz th u [p] rest

/-- `detect_threads` with the exception path explicit: `none` exactly when
some sort comparison or join-test subtraction raises `TypeError`. -/
def detectThreadsTz (posts : List XPostTz) (th : ℤ) : Option (List XItemTz) :=
  if posts.isEmpty then some []
  else
    match (groupByAuthorTz posts).foldl
        (fun acc g => acc.bind
          (fun l => (authorItemsTz th g.1 g.2).map (fun r => l ++ r)))
        (some []) with
    | none => none
    | some items =>
      (stableSortTz (fun a b => keyLeTz b.1 a.1) items).map
        (fun l => l.map Prod.snd)

/-- A sort tag that is safely comparable against the aware sentinel: missing,
or offset-aware and strictly after `datetime.min` (every real timestamp is). -/
def awareTag : Option PDt → Bool
  | none => true
  | some d => d.aware && decide (dtMin.ms < d.ms)

/-- A post whose timestamp is on the aware domain. -/
def awareOk (q : XPostTz) : Bool :=
  awareTag q.createdAt

/-! ## General facts about `stableSort` -/

theorem sInsert_perm (le : α → α → Bool) (a : α) (l : List α) :
    (sInsert le a l).Perm (a :: l) := by
  induction l with
  | nil => simp [sInsert]
  | cons b t ih =>
    simp only [sInsert]
    by_cases h : le b a
    · simp only [h, if_pos]
      exact (ih.cons b).trans (List.Perm.swap a b t)
    · simp [h]

theorem stableSort_perm (le : α → α → Bool) (l : List α) :
    (stableSort le l).Perm l := by
  suffices h : ∀ (l acc : List α),
      (l.foldl (fun acc a => sInsert le a acc) acc).Perm (acc ++ l) by
    simpa [stableSort] using h l []
  intro l
  induction l with
  | nil => intro acc; simp
  | cons a t ih =>
    intro acc
    simp only [List.foldl_cons]
    refine (ih (sInsert le a acc)).trans ?_
    refine (List.Perm.append (sInsert_perm le a acc) (List.Perm.refl t)).trans ?_
    exact List.perm_middle.symm

theorem mem_stableSort (le : α → α → Bool) (a : α) (l : List α) :
    a ∈ stableSort le l ↔ a ∈ l :=
  (stableSort_perm le l).mem_iff

theorem sInsert_pairwise (le : α → α → Bool)
    (htrans : ∀ a b c, le a b = true → le b c = true → le a c = true)
    (htot : ∀ a b, (le a b || le b a) = true)
    (a : α) (l : List α) (h : l.Pairwise (fun x y => le x y = true)) :
    (sInsert le a l).Pairwise (fun x y => le x y = true) := by
  induction l with
  | nil => simp [sInsert]
  | cons b t ih =>
    rcases List.pairwise_cons.1 h with ⟨hb, ht⟩
    simp only [sInsert]
    by_cases hba : le b a
    · simp only [hba, if_pos]
      refine List.pairwise_cons.2 ⟨?_, ih ht⟩
      intro x hx
      rcases List.mem_cons.1 ((sInsert_perm le a t).mem_iff.1 hx) with h' | h'
      · exact h' ▸ hba
      · exact hb x h'
    · have hab : le a b = true := by
        have := htot a b
        rcases Bool.or_eq_true_iff.1 this with h' | h'
        · exact h'
        · exact absurd h' hba
      simp only [hba, if_neg, Bool.false_eq_true, not_false_eq_true]
      refine List.pairwise_cons.2 ⟨?_, h⟩
      intro x hx
      rcases List.mem_cons.1 hx with h' | h'
      · exact h' ▸ hab
      · exact htrans a b x hab (hb x h')

theorem stableSort_pairwise (le : α → α → Bool)
    (htrans : ∀ a b c, le a b = true → le b c = true → le a c = true)
    (htot : ∀ a b, (le a b || le b a) = true) (l : List α) :
    (stableSort le l).Pairwise (fun x y => le x y = true) := by
  suffices h : ∀ (l acc : List α), acc.Pairwise (fun x y => le x y = true) →
      (l.foldl (fun acc a => sInsert le a acc) acc).Pairwise
        (fun x y => le x y = true) by
    exact h l [] List.Pairwise.nil
  intro l
  induction l with
  | nil => intro acc hacc; simpa using hacc
  | cons a t ih =>
    intro acc hacc
    exact ih _ (sInsert_pairwise le htrans htot a acc hacc)

/-! ## Demonstration data used in concrete instances -/

def aliceP0 : XPost := ⟨"alice", "first", some 0, "https://x.com/alice/1", 3, 1, 0⟩

/-- Exactly 10.0 minutes (600000 ms) after `aliceP0`. -/
def aliceP600 : XPost := ⟨"alice", "tenmin", some 600000, "https://x.com/alice/2", 0, 0, 0⟩

/-- 10.01 minutes (600600 ms) after `aliceP0`. -/
def aliceP6006 : XPost := ⟨"alice", "gap1001", some 600600, "https://x.com/alice/3", 0, 0, 0⟩

/-- 10.5 minutes (630000 ms) after `aliceP0`. -/
def aliceP630 : XPost := ⟨"alice", "gap1050", some 630000, "https://x.com/alice/4", 0, 0, 0⟩

/-- 5 minutes after `aliceP0`. -/
def aliceP300 : XPost := ⟨"alice", "fivemin", some 300000, "https://x.com/alice/5", 0, 0, 0⟩

/-- A post whose `created_at` failed to parse. -/
def alicePBad : XPost := ⟨"alice", "malformed", none, "https://x.com/alice/6", 0, 0, 0⟩

/-- An offset-aware post at 2024-01-15T00:00:00Z (`created_at` with `Z`). -/
def aliceTzA : XPostTz :=
  ⟨"alice", "first", some ⟨1705276800000, true⟩, "https://x.com/alice/1", 3, 1, 0⟩

/-- Offset-aware, 5 minutes after `aliceTzA`. -/
def aliceTzB : XPostTz :=
  ⟨"alice", "fivemin", some ⟨1705277100000, true⟩, "https://x.com/alice/5", 0, 0, 0⟩

/-- A post whose `created_at` failed to parse (`dt = None`). -/
def aliceTzBad : XPostTz :=
  ⟨"alice", "malformed", none, "https://x.com/alice/6", 0, 0, 0⟩

/-- A post with a date-only `created_at` (`"2024-01-15"`, the `createdAtDate`
field format): `datetime.fromisoformat` parses it offset-naive. -/
def aliceTzNaive : XPostTz :=
  ⟨"alice", "dateonly", some ⟨1705276800000, false⟩, "https://x.com/alice/7", 0, 0, 0⟩

/-! ## Claim C10 -/

/-- C10: `normalize` called with kind `x_thread` on a record whose posts list
is empty does not fail: it returns an item with empty title, empty text, url
equal to the placeholder `'#'`, and an empty entity set. -/
theorem normalizeThread_empty_posts (u : String) :
    (normalizeThread ⟨u, []⟩).title = "" ∧ (normalizeThread ⟨u, []⟩).text = "" ∧
    (normalizeThread ⟨u, []⟩).url = "#" ∧ (normalizeThread ⟨u, []⟩).entities = [] :=
  ⟨rfl, rfl, rfl, rfl⟩

/-! ## Claim C5 -/

theorem joinsRun_eq_true_iff (th a b : ℤ) :
    joinsRun th (some a) (some b) = true ↔ |b - a| ≤ th * 60000 := by
  simp only [joinsRun, decide_eq_true_eq]
  rw [Int.abs_eq_natAbs]

/-- C5: in `detect_threads`, two consecutive posts of one author join the same
run exactly when the absolute difference of their timestamps is at most the
threshold (`th` minutes = `th * 60000` milliseconds; the bound is inclusive):
posts exactly 10 minutes apart merge into a thread, posts 10.01 or 10.5
minutes apart stay separate. -/
theorem detectThreads_boundary :
    (∀ th a b : ℤ, joinsRun th (some a) (some b) = true ↔ |b - a| ≤ th * 60000) ∧
    detectThreads [aliceP0, aliceP600] 10 =
      [XItem.thread [aliceP0, aliceP600] "alice"] ∧
    detectThreads [aliceP0, aliceP6006] 10 =
      [XItem.post aliceP6006, XItem.post aliceP0] ∧
    detectThreads [aliceP0, aliceP630] 10 =
      [XItem.post aliceP630, XItem.post aliceP0] :=
  ⟨joinsRun_eq_true_iff, by decide, by decide, by decide⟩

/-! ## Claim C7 -/

theorem joinsRun_none_right (th : ℤ) (x : Option ℤ) : joinsRun th x none = false := by
  cases x <;> rfl

theorem joinsRun_none_left (th : ℤ) (x : Option ℤ) : joinsRun th none x = false := by
  cases x <;> rfl

theorem awareTag_some (d : PDt) (h : awareTag (some d) = true) :
    d.aware = true ∧ dtMin.ms < d.ms := by
  simpa [awareTag] using h

theorem keyLeTz_agree (a b : Option PDt) (ha : awareTag a = true)
    (hb : awareTag b = true) :
    keyLeTz a b = some (keyLe (projTag a) (projTag b)) := by
  cases a with
  | none =>
    cases b with
    | none => simp [keyLeTz, pdtLe, keyLe, projTag, dtMin]
    | some e =>
      obtain ⟨he, hemin⟩ := awareTag_some e hb
      have hemin2 : (-62135596800000 : ℤ) < e.ms := hemin
      simp [keyLeTz, pdtLe, keyLe, projTag, dtMin, he, hemin2.le]
  | some d =>
    obtain ⟨hd, hdmin⟩ := awareTag_some d ha
    have hdmin2 : (-62135596800000 : ℤ) < d.ms := hdmin
    cases b with
    | none =>
      simp [keyLeTz, pdtLe, keyLe, projTag, dtMin, hd, not_le.2 hdmin2, hdmin2]
    | some e =>
      obtain ⟨he, hemin⟩ := awareTag_some e hb
      simp [keyLeTz, pdtLe, keyLe, projTag, hd, he]

theorem joinsRunTz_agree (th : ℤ) (a b : Option PDt) (ha : awareTag a = true)
    (hb : awareTag b = true) :
    joinsRunTz th a b = some (joinsRun th (projTag a) (projTag b)) := by
  cases a with
  | none => cases b <;> rfl
  | some d =>
    cases b with
    | none => rfl
    | some e =>
      obtain ⟨hd, _⟩ := awareTag_some d ha
      obtain ⟨he, _⟩ := awareTag_some e hb
      simp [joinsRunTz, joinsRun, projTag, hd, he]

theorem sInsertTz_sim {α β : Type} (proj : α → β) (le : β → β → Bool)
    (leE : α → α → Option Bool) (P : α → Bool)
    (hag : ∀ a b, P a = true → P b = true → leE a b = some (le (proj a) (proj b)))
    (a : α) (ha : P a = true) (l : List α) :
    (∀ x ∈ l, P x = true) →
    ∃ r, sInsertTz leE a l = some r ∧ (∀ x ∈ r, P x = true) ∧
      r.map proj = sInsert le (proj a) (l.map proj) := by
  induction l with
  | nil =>
    intro _
    refine ⟨[a], rfl, ?_, rfl⟩
    intro x hx
    rcases List.mem_singleton.1 hx with rfl
    exact ha
  | cons b t ih =>
    intro hl
    have hb : P b = true := hl b (List.mem_cons_self b t)
    obtain ⟨r, hr, hrP, hrproj⟩ := ih (fun x hx => hl x (List.mem_cons_of_mem b hx))
    cases hle : le (proj b) (proj a) with
    | true =>
      refine ⟨b :: r, ?_, ?_, ?_⟩
      · have heq : sInsertTz leE a (b :: t) =
            (sInsertTz leE a t).map (fun r => b :: r) := by
          rw [sInsertTz, hag b a hb ha, hle]
        rw [heq, hr]
        rfl
      · intro x hx
        rcases List.mem_cons.1 hx with rfl | hx'
        · exact hb
        · exact hrP x hx'
      · simp [sInsert, hle, hrproj]
    | false =>
      refine ⟨a :: b :: t, ?_, ?_, ?_⟩
      · rw [sInsertTz, hag b a hb ha, hle]
      · intro x hx
        rcases List.mem_cons.1 hx with rfl | hx'
        · exact ha
        · exact hl x hx'
      · simp [sInsert, hle]

theorem stableSortTz_sim {α β : Type} (proj : α → β) (le : β → β → Bool)
    (leE : α → α → Option Bool) (P : α → Bool)
    (hag : ∀ a b, P a = true → P b = true → leE a b = some (le (proj a) (proj b)))
    (l : List α) (hl : ∀ x ∈ l, P x = true) :
    ∃ r, stableSortTz leE l = some r ∧ (∀ x ∈ r, P x = true) ∧
      r.map proj = stableSort le (l.map proj) := by
  suffices h : ∀ (t : List α) (acc : List α), (∀ x ∈ t, P x = true) →
      (∀ x ∈ acc, P x = true) →
      ∃ r, t.foldl (fun acc a => acc.bind (sInsertTz leE a)) (some acc) = some r ∧
        (∀ x ∈ r, P x = true) ∧
        r.map proj = (t.map proj).foldl (fun acc a => sInsert le a acc) (acc.map proj) by
    obtain ⟨r, h1, h2, h3⟩ := h l [] hl (by intro x hx; simp at hx)
    exact ⟨r, h1, h2, h3⟩
  intro t
  induction t with
  | nil =>
    intro acc _ hacc
    exact ⟨acc, rfl, hacc, rfl⟩
  | cons a t ih =>
    intro acc hT hacc
    have haA : P a = true := hT a (List.mem_cons_self a t)
    obtain ⟨r1, hr1, hr1P, hr1proj⟩ := sInsertTz_sim proj le leE P hag a haA acc hacc
    obtain ⟨r, hr, hrP, hrproj⟩ :=
      ih r1 (fun x hx => hT x (List.mem_cons_of_mem a hx)) hr1P
    refine ⟨r, ?_, hrP, ?_⟩
    · rw [List.foldl_cons]
      have hstep : (some acc).bind (sInsertTz leE a) = some r1 := hr1
      rw [hstep]
      exact hr
    · rw [hrproj]
      simp only [List.map_cons, List.foldl_cons]
      rw [hr1proj]

theorem closeRunTz_proj (u : String) (run : List XPostTz) :
    (closeRunTz u run).map projPair = closeRun u (run.map projPost) := by
  cases run with
  | nil => rfl
  | cons p rest =>
    cases rest with
    | nil => rfl
    | cons q t => rfl

theorem closeRunTz_tag (u : String) (run : List XPostTz)
    (x : Option PDt × XItemTz) (hx : x ∈ closeRunTz u run) :
    ∃ q ∈ run, x.1 = q.createdAt := by
  cases run with
  | nil => simp [closeRunTz] at hx
  | cons p rest =>
    cases rest with
    | nil =>
      simp only [closeRunTz, List.mem_singleton] at hx
      exact ⟨p, List.mem_cons_self p [], by rw [hx]⟩
    | cons q t =>
      simp only [closeRunTz, List.mem_singleton] at hx
      exact ⟨p, List.mem_cons_self p (q :: t), by rw [hx]⟩

theorem threadWalkTz_sim (th : ℤ) (u : String) (l : List XPostTz) :
    ∀ run : List XPostTz, (∀ q ∈ run, awareOk q = true) →
    (∀ q ∈ l, awareOk q = true) →
    ∃ r, threadWalkTz th u run l = some r ∧ (∀ x ∈ r, awareTag x.1 = true) ∧
      r.map projPair = threadWalk th u (run.map projPost) (l.map projPost) := by
  induction l with
  | nil =>
    intro run hrun _
    refine ⟨closeRunTz u run, rfl, ?_, ?_⟩
    · intro x hx
      obtain ⟨q, hq, hxq⟩ := closeRunTz_tag u run x hx
      rw [hxq]
      exact hrun q hq
    · show (closeRunTz u run).map projPair = closeRun u (run.map projPost)
      exact closeRunTz_proj u run
  | cons p t ih =>
    intro run hrun hl
    have hp : awareOk p = true := hl p (List.mem_cons_self p t)
    have ht : ∀ q ∈ t, awareOk q = true :=
      fun q hq => hl q (List.mem_cons_of_mem p hq)
    cases hlast : run.getLast? with
    | none =>
      have hrun0 : run = [] := List.getLast?_eq_none_iff.1 hlast
      subst hrun0
      obtain ⟨r, hr, hrT, hrproj⟩ := ih [p] (by
        intro q hq
        rcases List.mem_singleton.1 hq with rfl
        exact hp) ht
      refine ⟨r, ?_, hrT, ?_⟩
      · have heq : threadWalkTz th u [] (p :: t) = threadWalkTz th u [p] t := by
          rw [threadWalkTz]
          rfl
        rw [heq, hr]
      · rw [hrproj]
        have heq : threadWalk th u (List.map projPost []) (List.map projPost (p :: t)) =
            threadWalk th u [projPost p] (List.map projPost t) := by
          simp only [List.map_nil, List.map_cons]
          rw [threadWalk]
          rfl
        rw [heq]
        rfl
    | some prev =>
      have hprevmem : prev ∈ run := List.mem_of_mem_getLast? hlast
      have hprevA : awareOk prev = true := hrun prev hprevmem
      have hjoin : joinsRunTz th prev.createdAt p.createdAt =
          some (joinsRun th (projTag prev.createdAt) (projTag p.createdAt)) :=
        joinsRunTz_agree th prev.createdAt p.createdAt hprevA hp
      have hlast2 : (run.map projPost).getLast? = some (projPost prev) := by
        rw [List.getLast?_map, hlast]
        rfl
      by_cases hj : joinsRun th (projTag prev.createdAt) (projTag p.createdAt) = true
      · obtain ⟨r, hr, hrT, hrproj⟩ := ih (run ++ [p]) (by
          intro q hq
          rcases List.mem_append.1 hq with h | h
          · exact hrun q h
          · rcases List.mem_singleton.1 h with rfl
            exact hp) ht
        refine ⟨r, ?_, hrT, ?_⟩
        · have heq : threadWalkTz th u run (p :: t) =
              threadWalkTz th u (run ++ [p]) t := by
            rw [threadWalkTz, hlast]
            simp [hjoin, hj]
          rw [heq, hr]
        · rw [hrproj]
          have hj2 : joinsRun th (projPost prev).createdAt (projPost p).createdAt = true := hj
          have heq : threadWalk th u (run.map projPost) (List.map projPost (p :: t)) =
              threadWalk th u (run.map projPost ++ [projPost p]) (List.map projPost t) := by
            simp only [List.map_cons]
            rw [threadWalk, hlast2]
            simp [hj2]
          rw [heq]
          simp [List.map_append]
      · have hj' : joinsRun th (projTag prev.createdAt) (projTag p.createdAt) = false := by
          simpa using hj
        obtain ⟨r, hr, hrT, hrproj⟩ := ih [p] (by
          intro q hq
          rcases List.mem_singleton.1 hq with rfl
          exact hp) ht
        refine ⟨closeRunTz u run ++ r, ?_, ?_, ?_⟩
        · have heq : threadWalkTz th u run (p :: t) =
              (threadWalkTz th u [p] t).map (fun r => closeRunTz u run ++ r) := by
            rw [threadWalkTz, hlast]
            simp [hjoin, hj']
          rw [heq, hr]
          rfl
        · intro x hx
          rcases List.mem_append.1 hx with h | h
          · obtain ⟨q, hq, hxq⟩ := closeRunTz_tag u run x h
            rw [hxq]
            exact hrun q hq
          · exact hrT x h
        · rw [List.map_append, closeRunTz_proj, hrproj]
          have hj2 : joinsRun th (projPost prev).createdAt (projPost p).createdAt = false := hj'
          have heq : threadWalk th u (run.map projPost) (List.map projPost (p :: t)) =
              closeRun u (run.map projPost) ++
                threadWalk th u [projPost p] (List.map projPost t) := by
            simp only [List.map_cons]
            rw [threadWalk, hlast2]
            simp [hj2]
          rw [heq]
          rfl

theorem authorItemsTz_sim (th : ℤ) (u : String) (g : List XPostTz)
    (hg : ∀ q ∈ g, awareOk q = true) :
    ∃ r, authorItemsTz th u g = some r ∧ (∀ x ∈ r, awareTag x.1 = true) ∧
      r.map projPair = authorItems th u (g.map projPost) := by
  obtain ⟨s, hs, hsP, hsproj⟩ := stableSortTz_sim projPost
    (fun a b => keyLe a.createdAt b.createdAt)
    (fun a b => keyLeTz a.createdAt b.createdAt) awareOk
    (fun a b ha hb => keyLeTz_agree a.createdAt b.createdAt ha hb) g hg
  cases s with
  | nil =>
    have hsort : stableSort (fun a b => keyLe a.createdAt b.createdAt)
        (g.map projPost) = [] := by
      rw [← hsproj]
      rfl
    refine ⟨[], ?_, by simp, ?_⟩
    · rw [authorItemsTz, hs]
    · rw [authorItems, hsort]
      rfl
  | cons p rest =>
    have hpA : awareOk p = true := hsP p (List.mem_cons_self p rest)
    cases rest with
    | nil =>
      have hsort : stableSort (fun a b => keyLe a.createdAt b.createdAt)
          (g.map projPost) = [projPost p] := by
        rw [← hsproj]
        rfl
      refine ⟨[(p.createdAt, XItemTz.post p)], ?_, ?_, ?_⟩
      · rw [authorItemsTz, hs]
      · intro x hx
        rcases List.mem_singleton.1 hx with rfl
        exact hpA
      · rw [authorItems, hsort]
        rfl
    | cons q t =>
      obtain ⟨r, hr, hrT, hrproj⟩ := threadWalkTz_sim th u (q :: t) [p]
        (by
          intro x hx
          rcases List.mem_singleton.1 hx with rfl
          exact hpA)
        (fun x hx => hsP x (List.mem_cons_of_mem p hx))
      have hsort : stableSort (fun a b => keyLe a.createdAt b.createdAt)
          (g.map projPost) = projPost p :: projPost q :: t.map projPost := by
        rw [← hsproj]
        rfl
      refine ⟨r, ?_, hrT, ?_⟩
      · rw [authorItemsTz, hs]
        exact hr
      · rw [hrproj, authorItems, hsort]
        rfl

theorem groupAddTz_proj (m : List (String × List XPostTz)) (p : XPostTz) :
    groupAdd (m.map (fun g => (g.1, g.2.map projPost))) (projPost p) =
      (groupAddTz m p).map (fun g => (g.1, g.2.map projPost)) := by
  induction m with
  | nil => rfl
  | cons g rest ih =>
    obtain ⟨u, l⟩ := g
    simp only [List.map_cons, groupAdd, groupAddTz]
    have hu : (projPost p).username = p.username := rfl
    rw [hu]
    by_cases h : u = p.username
    · rw [if_pos h, if_pos h]
      simp
    · rw [if_neg h, if_neg h, List.map_cons, ih]

theorem groupByAuthorTz_proj (posts : List XPostTz) :
    groupByAuthor (posts.map projPost) =
      (groupByAuthorTz posts).map (fun g => (g.1, g.2.map projPost)) := by
  suffices h : ∀ (l : List XPostTz) (m : List (String × List XPostTz)),
      (l.map projPost).foldl groupAdd (m.map (fun g => (g.1, g.2.map projPost))) =
        (l.foldl groupAddTz m).map (fun g => (g.1, g.2.map projPost)) by
    simpa [groupByAuthor, groupByAuthorTz] using h posts []
  intro l
  induction l with
  | nil => intro m; rfl
  | cons p t ih =>
    intro m
    simp only [List.map_cons, List.foldl_cons]
    rw [groupAddTz_proj]
    exact ih (groupAddTz m p)

theorem groupAddTz_posts (m : List (String × List XPostTz)) (p : XPostTz) :
    ((groupAddTz m p).flatMap Prod.snd).Perm ((m.flatMap Prod.snd) ++ [p]) := by
  induction m with
  | nil => simp [groupAddTz]
  | cons ul rest ih =>
    obtain ⟨u, l⟩ := ul
    simp only [groupAddTz]
    by_cases h : u = p.username
    · rw [if_pos h]
      simp only [List.flatMap_cons]
      rw [List.append_assoc, List.append_assoc]
      exact List.Perm.append_left l List.perm_append_comm
    · rw [if_neg h]
      simp only [List.flatMap_cons]
      refine (List.Perm.append_left l ih).trans ?_
      rw [List.append_assoc]

theorem groupByAuthorTz_posts (posts : List XPostTz) :
    ((groupByAuthorTz posts).flatMap Prod.snd).Perm posts := by
  suffices h : ∀ (l : List XPostTz) (m : List (String × List XPostTz)),
      ((l.foldl groupAddTz m).flatMap Prod.snd).Perm ((m.flatMap Prod.snd) ++ l) by
    simpa [groupByAuthorTz] using h posts []
  intro l
  induction l with
  | nil => intro m; simp
  | cons p rest ih =>
    intro m
    simp only [List.foldl_cons]
    refine (ih (groupAddTz m p)).trans ?_
    refine (List.Perm.append (groupAddTz_posts m p) (List.Perm.refl rest)).trans ?_
    rw [List.append_assoc]
    exact List.Perm.refl _

theorem groupByAuthorTz_mem (posts : List XPostTz) (g : String × List XPostTz)
    (hg : g ∈ groupByAuthorTz posts) (q : XPostTz) (hq : q ∈ g.2) : q ∈ posts := by
  refine (groupByAuthorTz_posts posts).mem_iff.1 ?_
  exact List.mem_flatMap.2 ⟨g, hg, hq⟩

theorem groupFoldTz_sim (th : ℤ) (gs : List (String × List XPostTz)) :
    ∀ acc : List (Option PDt × XItemTz),
    (∀ g ∈ gs, ∀ q ∈ g.2, awareOk q = true) →
    (∀ x ∈ acc, awareTag x.1 = true) →
    ∃ items, gs.foldl
        (fun acc g => acc.bind
          (fun l => (authorItemsTz th g.1 g.2).map (fun r => l ++ r)))
        (some acc) = some items ∧
      (∀ x ∈ items, awareTag x.1 = true) ∧
      items.map projPair = acc.map projPair ++
        (gs.map (fun g => (g.1, g.2.map projPost))).flatMap
          (fun g => authorItems th g.1 g.2) := by
  induction gs with
  | nil =>
    intro acc _ hacc
    exact ⟨acc, rfl, hacc, by simp⟩
  | cons g gs ih =>
    intro acc hgs hacc
    obtain ⟨r, hr, hrT, hrproj⟩ := authorItemsTz_sim th g.1 g.2
      (hgs g (List.mem_cons_self g gs))
    obtain ⟨items, hitems, hT, hproj⟩ := ih (acc ++ r)
      (fun g' hg' => hgs g' (List.mem_cons_of_mem g hg'))
      (by
        intro x hx
        rcases List.mem_append.1 hx with h | h
        · exact hacc x h
        · exact hrT x h)
    refine ⟨items, ?_, hT, ?_⟩
    · rw [List.foldl_cons]
      have hstep : (some acc).bind
          (fun l => (authorItemsTz th g.1 g.2).map (fun r => l ++ r)) =
            some (acc ++ r) := by
        show (authorItemsTz th g.1 g.2).map (fun r => acc ++ r) = some (acc ++ r)
        rw [hr]
        rfl
      rw [hstep]
      exact hitems
    · rw [hproj, List.map_append, hrproj]
      simp [List.flatMap_cons, List.append_assoc]

theorem detectThreadsTz_sim (posts : List XPostTz) (th : ℤ)
    (haware : ∀ q ∈ posts, awareOk q = true) :
    ∃ out, detectThreadsTz posts th = some out ∧
      out.map projItem = detectThreads (posts.map projPost) th := by
  by_cases hemp : posts.isEmpty
  · refine ⟨[], ?_, ?_⟩
    · rw [detectThreadsTz, if_pos hemp]
    · have hnil : posts = [] := List.isEmpty_iff.1 hemp
      subst hnil
      rfl
  · obtain ⟨items, hitems, hT, hproj⟩ := groupFoldTz_sim th (groupByAuthorTz posts) []
      (fun g hg q hq => haware q (groupByAuthorTz_mem posts g hg q hq))
      (by intro x hx; simp at hx)
    obtain ⟨s, hs, hsP, hsproj⟩ := stableSortTz_sim projPair
      (fun a b => keyLe b.1 a.1) (fun a b => keyLeTz b.1 a.1)
      (fun x => awareTag x.1)
      (fun a b ha hb => keyLeTz_agree b.1 a.1 hb ha) items hT
    have hemp2 : ¬ ((posts.map projPost).isEmpty = true) := by
      intro hc
      refine hemp ?_
      have h1 : posts.map projPost = [] := List.isEmpty_iff.1 hc
      have h2 : posts = [] := List.map_eq_nil_iff.1 h1
      rw [h2]
      rfl
    refine ⟨s.map Prod.snd, ?_, ?_⟩
    · rw [detectThreadsTz, if_neg hemp, hitems]
      show (stableSortTz (fun a b => keyLeTz b.1 a.1) items).map
          (fun l => l.map Prod.snd) = some (s.map Prod.snd)
      rw [hs]
      rfl
    · rw [detectThreads, if_neg hemp2]
      have hflat : (groupByAuthor (posts.map projPost)).flatMap
          (fun g => authorItems th g.1 g.2) = items.map projPair := by
        rw [groupByAuthorTz_proj, hproj]
        simp
      rw [hflat, ← hsproj]
      simp only [List.map_map]
      rfl

/-- C7 (corrected): malformed timestamps break runs, but `detect_threads` can
raise. A post with an unparseable `created_at` (or one following it) never
joins the current run: the run is closed — emitted as a thread when it has at
least two posts, else standalone — and a new run starts with the breaking
post; the concrete conjunct shows this end to end. On the offset-aware
domain (every parsed `created_at` carries a UTC offset and lies strictly
after `datetime.min`, as every real feed timestamp does), nothing is raised:
the exception-precise model succeeds and agrees with the single-scale model.
The unconditional "never raises" of the original claim is refuted by the
separate counterexample below, where a date-only `created_at` (parsed
offset-naive) meets the offset-aware sentinel of a malformed one. -/
theorem detectThreads_malformed_timestamps (th : ℤ) (u : String)
    (run : List XPost) (p : XPost) (rest : List XPost) (prev : XPost)
    (posts : List XPostTz) (hlast : run.getLast? = some prev)
    (hbad : p.createdAt = none ∨ prev.createdAt = none)
    (haware : ∀ q ∈ posts, awareOk q = true) :
    threadWalk th u run (p :: rest) = closeRun u run ++ threadWalk th u [p] rest ∧
    detectThreads [aliceP0, alicePBad, aliceP300] 10 =
      [XItem.thread [aliceP0, aliceP300] "alice", XItem.post alicePBad] ∧
    ∃ out, detectThreadsTz posts th = some out ∧
      out.map projItem = detectThreads (posts.map projPost) th := by
  refine ⟨?_, by decide, detectThreadsTz_sim posts th haware⟩
  have hfalse : joinsRun th prev.createdAt p.createdAt = false := by
    rcases hbad with h | h
    · rw [h]; exact joinsRun_none_right th prev.createdAt
    · rw [h]; exact joinsRun_none_left th p.createdAt
  cases run with
  | nil => simp at hlast
  | cons q qs =>
    rw [threadWalk, hlast]
    simp [hfalse]

/-- C7 counterexample: `detect_threads` can raise on a malformed timestamp.
With one date-only `created_at` (`"2024-01-15"`, parsed offset-naive by
`fromisoformat`) and one malformed `created_at` (`dt = None`) from the same
author, the per-author sort compares the naive datetime against the
offset-aware sentinel `datetime.min.replace(tzinfo=timezone.utc)` and raises
an uncaught `TypeError`. -/
theorem detectThreadsTz_naive_raises :
    detectThreadsTz [aliceTzNaive, aliceTzBad] 10 = none := by decide

theorem detectThreads_malformed_timestamps_witness :
    (([aliceP0] : List XPost).getLast? = some aliceP0 ∧
      (alicePBad.createdAt = none ∨ aliceP0.createdAt = none) ∧
      (∀ q ∈ [aliceTzA, aliceTzB, aliceTzBad], awareOk q = true)) ∧
    (threadWalk 10 "alice" [aliceP0] (alicePBad :: []) =
        closeRun "alice" [aliceP0] ++ threadWalk 10 "alice" [alicePBad] [] ∧
      detectThreads [aliceP0, alicePBad, aliceP300] 10 =
        [XItem.thread [aliceP0, aliceP300] "alice", XItem.post alicePBad] ∧
      ∃ out, detectThreadsTz [aliceTzA, aliceTzB, aliceTzBad] 10 = some out ∧
        out.map projItem =
          detectThreads ([aliceTzA, aliceTzB, aliceTzBad].map projPost) 10) :=
  ⟨⟨by decide, Or.inl rfl, by decide⟩,
    detectThreads_malformed_timestamps 10 "alice" [aliceP0] alicePBad [] aliceP0
      [aliceTzA, aliceTzB, aliceTzBad] (by decide) (Or.inl rfl) (by decide)⟩

/-! ## Claim C3 -/

theorem mem_setInsert (acc : List String) (e x : String) :
    x ∈ setInsert acc e ↔ x ∈ acc ∨ x = e := by
  simp only [setInsert]
  by_cases h : acc.contains e
  · have he : e ∈ acc := List.elem_iff.1 h
    simp only [h, if_pos]
    constructor
    · exact Or.inl
    · rintro (hx | rfl)
      · exact hx
      · exact he
  · simp only [h, if_neg]
    simp [List.mem_append]

theorem mem_foldl_setInsert {β : Type} (p : β → Bool) (f : β → String)
    (l : List β) (init : List String) (x : String) :
    x ∈ l.foldl (fun acc y => if p y then setInsert acc (f y) else acc) init ↔
      x ∈ init ∨ ∃ y ∈ l, p y = true ∧ x = f y := by
  induction l generalizing init with
  | nil => simp
  | cons y rest ih =>
    simp only [List.foldl_cons]
    by_cases h : p y
    · rw [if_pos h, ih, mem_setInsert]
      constructor
      · rintro (⟨hx | rfl⟩ | ⟨z, hz, hpz, rfl⟩)
        · exact Or.inl hx
        · exact Or.inr ⟨y, List.mem_cons_self y rest, h, rfl⟩
        · exact Or.inr ⟨z, List.mem_cons_of_mem y hz, hpz, rfl⟩
      · rintro (hx | ⟨z, hz, hpz, rfl⟩)
        · exact Or.inl (Or.inl hx)
        · rcases List.mem_cons.1 hz with rfl | hz'
          · exact Or.inl (Or.inr rfl)
          · exact Or.inr ⟨z, hz', hpz, rfl⟩
    · rw [if_neg h, ih]
      constructor
      · rintro (hx | ⟨z, hz, hpz, rfl⟩)
        · exact Or.inl hx
        · exact Or.inr ⟨z, List.mem_cons_of_mem y hz, hpz, rfl⟩
      · rintro (hx | ⟨z, hz, hpz, rfl⟩)
        · exact Or.inl hx
        · rcases List.mem_cons.1 hz with rfl | hz'
          · exact absurd hpz h
          · exact Or.inr ⟨z, hz', hpz, rfl⟩

/-- Membership in `extract_entities`: an entity is extracted iff it is the
canonical name of a matching dictionary form, or a long non-stop-word
proper-noun token. -/
theorem extract_mem (text x : String) (h : text ≠ "") :
    x ∈ extractEntities text ↔
      (∃ pc ∈ knownEntities,
        matchesEntry (text.toList.map Char.toLower) pc.1 = true ∧ x = pc.2) ∨
      (∃ n ∈ properNouns text.toList,
        (3 < n.length &&
          !stopWords.contains (String.mk (n.toList.map Char.toLower))) = true ∧
        x = n) := by
  unfold extractEntities
  rw [if_neg h]
  rw [mem_foldl_setInsert (fun n =>
      3 < n.length && !stopWords.contains (String.mk (n.toList.map Char.toLower)))
      (fun n => n),
    mem_foldl_setInsert (fun pc => matchesEntry (text.toList.map Char.toLower) pc.1)
      Prod.snd]
  simp only [List.not_mem_nil, false_or]

theorem matchesEntry_aws (tl : List Char) :
    matchesEntry tl "aws" = boundaryMatch "aws".toList tl := rfl

/-- C3 (amended): dictionary surface forms of length ≤ 3 match only at word
boundaries while longer forms match as substrings anywhere. The surface form
`"ai"`, however, is not in the entity dictionary (it belongs to the separate
keyword filter `contains_ai_keyword`, not to `KNOWN_ENTITIES`), so
`extract "I love AI"` contains no `"ai"` entity — the separate counterexample
theorem below evaluates it to the empty set. The boundary rule is witnessed on the 3-character
form `"aws"` (the only dictionary source of the canonical entity `"AWS"`):
for every nonempty text, `"AWS"` is extracted iff `"aws"` occurs at word
boundaries in the lowercased text; in particular `extract "aircraft"` is
empty, `extract "paws"` does not contain `"AWS"`, and `extract "i use aws"`
does. Long forms (length > 3) match as plain substrings: any dictionary entry
whose form occurs anywhere in the lowercased text contributes its canonical
name. -/
theorem extract_short_form_boundary :
    (∀ text : String, text ≠ "" →
      ("AWS" ∈ extractEntities text ↔
        boundaryMatch "aws".toList (text.toList.map Char.toLower) = true)) ∧
    extractEntities "aircraft" = [] ∧
    "AWS" ∉ extractEntities "paws" ∧
    "AWS" ∈ extractEntities "i use aws" ∧
    (∀ pc ∈ knownEntities, ∀ text : String, text ≠ "" → 3 < pc.1.length →
      substrMatch pc.1.toList (text.toList.map Char.toLower) = true →
      pc.2 ∈ extractEntities text) := by
  refine ⟨?_, by decide, by decide, by decide, ?_⟩
  · intro text htext
    rw [extract_mem text "AWS" htext]
    constructor
    · rintro (⟨pc, hpc, hmatch, heq⟩ | ⟨n, _, hcond, heq⟩)
      · have hpceq : pc = ("aws", "AWS") := by
          have hforall : ∀ pc ∈ knownEntities, pc.2 = "AWS" → pc = ("aws", "AWS") := by
            decide
          exact hforall pc hpc heq.symm
        rw [hpceq] at hmatch
        rw [matchesEntry_aws] at hmatch
        exact hmatch
      · exfalso
        rw [← heq] at hcond
        simp at hcond
        exact absurd hcond.1 (by decide)
    · intro hb
      left
      refine ⟨("aws", "AWS"), by decide, ?_, rfl⟩
      rw [matchesEntry_aws]
      exact hb
  · intro pc hpc text htext hlen hsub
    rw [extract_mem text pc.2 htext]
    left
    refine ⟨pc, hpc, ?_, rfl⟩
    unfold matchesEntry
    rw [if_neg (by omega)]
    exact hsub

theorem extract_short_form_boundary_witness :
    ("i use aws" ≠ "" ∧
      ("AWS" ∈ extractEntities "i use aws" ↔
        boundaryMatch "aws".toList ("i use aws".toList.map Char.toLower) = true)) :=
  ⟨by decide, extract_short_form_boundary.1 "i use aws" (by decide)⟩

/-- C3 (counterexample): the claim asserts `extract "I love AI"` contains the
`"ai"` entity; in fact `extract_entities` extracts nothing at all from this
text, because `"ai"` is a key of the keyword filter's list `AI_KEYWORDS`, not
of the entity dictionary `KNOWN_ENTITIES`, and `"AI"` is not matched by the
proper-noun heuristic (`[A-Z][a-z]+` needs a lowercase letter). -/
theorem extract_love_ai_empty : extractEntities "I love AI" = [] := by decide

/-! ## Claim C9 -/

/-- The posts carried by one output item of `detect_threads`. -/
def itemPosts : XItem → List XPost
  | .post p => [p]
  | .thread ps _ => ps

theorem closeRun_posts (u : String) (run : List XPost) :
    (closeRun u run).flatMap (fun x => itemPosts x.2) = run := by
  cases run with
  | nil => rfl
  | cons p rest =>
    cases rest with
    | nil => rfl
    | cons q t => simp [closeRun, itemPosts]

theorem threadWalk_posts (th : ℤ) (u : String) (l run : List XPost) :
    ((threadWalk th u run l).flatMap (fun x => itemPosts x.2)).Perm (run ++ l) := by
  induction l generalizing run with
  | nil => simp [threadWalk, closeRun_posts]
  | cons p rest ih =>
    cases hl : run.getLast? with
    | none =>
      have hrun : run = [] := List.getLast?_eq_none_iff.1 hl
      subst hrun
      have heq : threadWalk th u [] (p :: rest) = threadWalk th u [p] rest := by
        rw [threadWalk]
        rfl
      rw [heq]
      simpa using ih [p]
    | some prev =>
      by_cases hj : joinsRun th prev.createdAt p.createdAt
      · have heq : threadWalk th u run (p :: rest) = threadWalk th u (run ++ [p]) rest := by
          rw [threadWalk, hl]
          simp [hj]
        rw [heq]
        refine (ih (run ++ [p])).trans ?_
        rw [List.append_assoc]
        exact List.Perm.refl _
      · have heq : threadWalk th u run (p :: rest) =
            closeRun u run ++ threadWalk th u [p] rest := by
          rw [threadWalk, hl]
          simp [hj]
        rw [heq, List.flatMap_append, closeRun_posts]
        refine List.Perm.append_left run ?_
        simpa using ih [p]

theorem authorItems_posts (th : ℤ) (u : String) (g : List XPost) :
    ((authorItems th u g).flatMap (fun x => itemPosts x.2)).Perm g := by
  have hperm := stableSort_perm (fun a b => keyLe a.createdAt b.createdAt) g
  cases hs : stableSort (fun a b => keyLe a.createdAt b.createdAt) g with
  | nil =>
    rw [hs] at hperm
    have : g = [] := hperm.symm.eq_nil
    subst this
    simp [authorItems, hs]
  | cons p rest =>
    rw [hs] at hperm
    cases rest with
    | nil =>
      simp only [authorItems, hs]
      simpa [itemPosts] using hperm
    | cons q t =>
      simp only [authorItems, hs]
      exact (threadWalk_posts th u (q :: t) [p]).trans hperm

theorem groupAdd_posts (m : List (String × List XPost)) (p : XPost) :
    ((groupAdd m p).flatMap Prod.snd).Perm ((m.flatMap Prod.snd) ++ [p]) := by
  induction m with
  | nil => simp [groupAdd]
  | cons ul rest ih =>
    obtain ⟨u, l⟩ := ul
    simp only [groupAdd]
    by_cases h : u = p.username
    · rw [if_pos h]
      simp only [List.flatMap_cons]
      rw [List.append_assoc, List.append_assoc]
      exact List.Perm.append_left l List.perm_append_comm
    · rw [if_neg h]
      simp only [List.flatMap_cons]
      refine (List.Perm.append_left l ih).trans ?_
      rw [List.append_assoc]

theorem groupByAuthor_posts (posts : List XPost) :
    ((groupByAuthor posts).flatMap Prod.snd).Perm posts := by
  suffices h : ∀ (l : List XPost) (m : List (String × List XPost)),
      ((l.foldl groupAdd m).flatMap Prod.snd).Perm ((m.flatMap Prod.snd) ++ l) by
    simpa [groupByAuthor] using h posts []
  intro l
  induction l with
  | nil => intro m; simp
  | cons p rest ih =>
    intro m
    simp only [List.foldl_cons]
    refine (ih (groupAdd m p)).trans ?_
    refine (List.Perm.append (groupAdd_posts m p) (List.Perm.refl rest)).trans ?_
    rw [List.append_assoc]
    exact List.Perm.refl _

/-- C9: `detect_threads` conserves posts: every input post appears exactly once
across the output — standalone or inside exactly one thread — so the multiset
of posts over all output items equals the input. -/
theorem detectThreads_conserves (posts : List XPost) (th : ℤ) :
    ((detectThreads posts th).flatMap itemPosts).Perm posts := by
  unfold detectThreads
  by_cases h : posts.isEmpty
  · rw [if_pos h]
    simp [List.isEmpty_iff.1 h]
  · rw [if_neg h]
    rw [List.flatMap_map]
    refine (List.Perm.flatMap_right _ (stableSort_perm _ _)).trans ?_
    rw [List.flatMap_assoc]
    refine (List.Perm.flatMap_left _ ?_).trans (groupByAuthor_posts posts)
    intro g _
    exact authorItems_posts th g.1 g.2

/-! ## Claim C6 -/

/-- The starting timestamp of an output item: a standalone post's own
timestamp, a thread's first (earliest) post's timestamp. This is exactly the
tag `detect_threads` sorts by. -/
def itemKey : XItem → Option ℤ
  | .post p => p.createdAt
  | .thread ps _ =>
    match ps with
    | [] => none
    | q :: _ => q.createdAt

theorem keyLe_trans (a b c : Option ℤ) (h1 : keyLe a b = true) (h2 : keyLe b c = true) :
    keyLe a c = true := by
  cases a with
  | none => rfl
  | some x =>
    cases b with
    | none => simp [keyLe] at h1
    | some y =>
      cases c with
      | none => simp [keyLe] at h2
      | some z =>
        simp only [keyLe, decide_eq_true_eq] at h1 h2 ⊢
        exact le_trans h1 h2

theorem keyLe_total (a b : Option ℤ) : (keyLe a b || keyLe b a) = true := by
  cases a with
  | none => rfl
  | some x =>
    cases b with
    | none => rfl
    | some y =>
      simp only [keyLe, Bool.or_eq_true, decide_eq_true_eq]
      exact le_total x y

theorem keyLe_none_right (x : Option ℤ) (h : keyLe x none = true) : x = none := by
  cases x with
  | none => rfl
  | some y => simp [keyLe] at h

theorem closeRun_tag (u : String) (run : List XPost) :
    ∀ x ∈ closeRun u run, itemKey x.2 = x.1 := by
  cases run with
  | nil => intro x hx; simp [closeRun] at hx
  | cons p rest =>
    cases rest with
    | nil =>
      intro x hx
      simp only [closeRun, List.mem_singleton] at hx
      subst hx
      rfl
    | cons q t =>
      intro x hx
      simp only [closeRun, List.mem_singleton] at hx
      subst hx
      rfl

theorem threadWalk_tag (th : ℤ) (u : String) (l run : List XPost) :
    ∀ x ∈ threadWalk th u run l, itemKey x.2 = x.1 := by
  induction l generalizing run with
  | nil =>
    intro x hx
    exact closeRun_tag u run x hx
  | cons p rest ih =>
    intro x hx
    cases hl : run.getLast? with
    | none =>
      have hrun : run = [] := List.getLast?_eq_none_iff.1 hl
      subst hrun
      have heq : threadWalk th u [] (p :: rest) = threadWalk th u [p] rest := by
        rw [threadWalk]
        rfl
      rw [heq] at hx
      exact ih [p] x hx
    | some prev =>
      by_cases hj : joinsRun th prev.createdAt p.createdAt
      · have heq : threadWalk th u run (p :: rest) = threadWalk th u (run ++ [p]) rest := by
          rw [threadWalk, hl]
          simp [hj]
        rw [heq] at hx
        exact ih (run ++ [p]) x hx
      · have heq : threadWalk th u run (p :: rest) =
            closeRun u run ++ threadWalk th u [p] rest := by
          rw [threadWalk, hl]
          simp [hj]
        rw [heq] at hx
        rcases List.mem_append.1 hx with hx' | hx'
        · exact closeRun_tag u run x hx'
        · exact ih [p] x hx'

theorem authorItems_tag (th : ℤ) (u : String) (g : List XPost) :
    ∀ x ∈ authorItems th u g, itemKey x.2 = x.1 := by
  intro x hx
  unfold authorItems at hx
  cases hs : stableSort (fun a b => keyLe a.createdAt b.createdAt) g with
  | nil => rw [hs] at hx; simp at hx
  | cons p rest =>
    rw [hs] at hx
    cases rest with
    | nil =>
      simp only [List.mem_singleton] at hx
      subst hx
      rfl
    | cons q t => exact threadWalk_tag th u (q :: t) [p] x hx

theorem closeRun_thread_sorted (u : String) (run : List XPost)
    (h : run.Pairwise (fun a b => keyLe a.createdAt b.createdAt = true)) :
    ∀ x ∈ closeRun u run, ∀ ps v, x.2 = XItem.thread ps v →
      ps.Pairwise (fun a b => keyLe a.createdAt b.createdAt = true) := by
  cases run with
  | nil => intro x hx; simp [closeRun] at hx
  | cons p rest =>
    cases rest with
    | nil =>
      intro x hx ps v hthread
      simp only [closeRun, List.mem_singleton] at hx
      subst hx
      simp at hthread
    | cons q t =>
      intro x hx ps v hthread
      simp only [closeRun, List.mem_singleton] at hx
      subst hx
      simp only [XItem.thread.injEq] at hthread
      rw [← hthread.1]
      exact h

theorem threadWalk_thread_sorted (th : ℤ) (u : String) (l run : List XPost)
    (h : (run ++ l).Pairwise (fun a b => keyLe a.createdAt b.createdAt = true)) :
    ∀ x ∈ threadWalk th u run l, ∀ ps v, x.2 = XItem.thread ps v →
      ps.Pairwise (fun a b => keyLe a.createdAt b.createdAt = true) := by
  induction l generalizing run with
  | nil =>
    intro x hx
    exact closeRun_thread_sorted u run (by simpa using h) x hx
  | cons p rest ih =>
    intro x hx
    cases hl : run.getLast? with
    | none =>
      have hrun : run = [] := List.getLast?_eq_none_iff.1 hl
      subst hrun
      have heq : threadWalk th u [] (p :: rest) = threadWalk th u [p] rest := by
        rw [threadWalk]
        rfl
      rw [heq] at hx
      exact ih [p] (by simpa using h) x hx
    | some prev =>
      by_cases hj : joinsRun th prev.createdAt p.createdAt
      · have heq : threadWalk th u run (p :: rest) = threadWalk th u (run ++ [p]) rest := by
          rw [threadWalk, hl]
          simp [hj]
        rw [heq] at hx
        refine ih (run ++ [p]) ?_ x hx
        rw [List.append_assoc]
        simpa using h
      · have heq : threadWalk th u run (p :: rest) =
            closeRun u run ++ threadWalk th u [p] rest := by
          rw [threadWalk, hl]
          simp [hj]
        rw [heq] at hx
        rcases List.mem_append.1 hx with hx' | hx'
        · exact closeRun_thread_sorted u run (List.pairwise_append.1 h).1 x hx'
        · exact ih [p] (by simpa using (List.pairwise_append.1 h).2.1) x hx'

theorem authorItems_thread_sorted (th : ℤ) (u : String) (g : List XPost) :
    ∀ x ∈ authorItems th u g, ∀ ps v, x.2 = XItem.thread ps v →
      ps.Pairwise (fun a b => keyLe a.createdAt b.createdAt = true) := by
  have hsorted := stableSort_pairwise (fun a b => keyLe a.createdAt b.createdAt)
    (fun a b c h1 h2 => keyLe_trans a.createdAt b.createdAt c.createdAt h1 h2)
    (fun a b => keyLe_total a.createdAt b.createdAt) g
  intro x hx
  unfold authorItems at hx
  cases hs : stableSort (fun a b => keyLe a.createdAt b.createdAt) g with
  | nil => rw [hs] at hx; simp at hx
  | cons p rest =>
    rw [hs] at hx
    rw [hs] at hsorted
    cases rest with
    | nil =>
      intro ps v hthread
      simp only [List.mem_singleton] at hx
      subst hx
      simp at hthread
    | cons q t =>
      exact threadWalk_thread_sorted th u (q :: t) [p] (by simpa using hsorted) x hx

/-- C6: the output of `detect_threads` is sorted descending by each emitted
item's starting timestamp — a standalone post's own timestamp, a thread's
first post's timestamp (which is its earliest: the third conjunct shows every
emitted thread's posts are ascending) — and items with the unparseable-minimum
sentinel (`none`) sort after everything else: once a sentinel item appears,
all later items carry the sentinel too. -/
theorem detectThreads_sorted (posts : List XPost) (th : ℤ) :
    (detectThreads posts th).Pairwise
      (fun a b => keyLe (itemKey b) (itemKey a) = true) ∧
    (detectThreads posts th).Pairwise
      (fun a b => itemKey a = none → itemKey b = none) ∧
    (∀ it ∈ detectThreads posts th, ∀ ps u, it = XItem.thread ps u →
      ps.Pairwise (fun a b => keyLe a.createdAt b.createdAt = true)) := by
  unfold detectThreads
  by_cases h : posts.isEmpty
  · rw [if_pos h]
    exact ⟨List.Pairwise.nil, List.Pairwise.nil, by intro it hit; simp at hit⟩
  · rw [if_neg h]
    have hpair := stableSort_pairwise (fun a b : Option ℤ × XItem => keyLe b.1 a.1)
      (fun a b c h1 h2 => keyLe_trans c.1 b.1 a.1 h2 h1)
      (fun a b => keyLe_total b.1 a.1)
      ((groupByAuthor posts).flatMap fun g => authorItems th g.1 g.2)
    have hmem_tag : ∀ x ∈ stableSort (fun a b : Option ℤ × XItem => keyLe b.1 a.1)
        ((groupByAuthor posts).flatMap fun g => authorItems th g.1 g.2),
        itemKey x.2 = x.1 := by
      intro x hx
      rcases List.mem_flatMap.1 ((mem_stableSort _ x _).1 hx) with ⟨g, _, hx'⟩
      exact authorItems_tag th g.1 g.2 x hx'
    have hfirst : (List.map Prod.snd
        (stableSort (fun a b : Option ℤ × XItem => keyLe b.1 a.1)
          ((groupByAuthor posts).flatMap fun g => authorItems th g.1 g.2))).Pairwise
        (fun a b => keyLe (itemKey b) (itemKey a) = true) := by
      rw [List.pairwise_map]
      refine List.Pairwise.imp_of_mem ?_ hpair
      intro a b ha hb hr
      rw [hmem_tag a ha, hmem_tag b hb]
      exact hr
    refine ⟨hfirst, ?_, ?_⟩
    · refine hfirst.imp ?_
      intro a b hr ha
      rw [ha] at hr
      exact keyLe_none_right _ hr
    · intro it hit ps u hthread
      rcases List.mem_map.1 hit with ⟨x, hx, hx2⟩
      rcases List.mem_flatMap.1 ((mem_stableSort _ x _).1 hx) with ⟨g, _, hx'⟩
      exact authorItems_thread_sorted th g.1 g.2 x hx' ps u (hx2.trans hthread)

/-! ## The inverted index: soundness and strict ordering of its lists -/

theorem mem_addIndex (m : List (String × List Nat)) (e : String) (i : Nat)
    (q : String × List Nat) (hq : q ∈ addIndex m e i) :
    q ∈ m ∨ ∃ l, q = (e, l ++ [i]) ∧ ((e, l) ∈ m ∨ l = []) := by
  induction m with
  | nil =>
    simp only [addIndex, List.mem_singleton] at hq
    exact Or.inr ⟨[], by simpa using hq, Or.inr rfl⟩
  | cons kl rest ih =>
    obtain ⟨k, l⟩ := kl
    simp only [addIndex] at hq
    by_cases h : k = e
    · rw [if_pos h] at hq
      rcases List.mem_cons.1 hq with rfl | hq'
      · subst h
        exact Or.inr ⟨l, rfl, Or.inl (List.mem_cons_self _ _)⟩
      · exact Or.inl (List.mem_cons_of_mem _ hq')
    · rw [if_neg h] at hq
      rcases List.mem_cons.1 hq with rfl | hq'
      · exact Or.inl (List.mem_cons_self _ _)
      · rcases ih hq' with h1 | ⟨l', hl', h2⟩
        · exact Or.inl (List.mem_cons_of_mem _ h1)
        · refine Or.inr ⟨l', hl', ?_⟩
          rcases h2 with h2 | h2
          · exact Or.inl (List.mem_cons_of_mem _ h2)
          · exact Or.inr h2

theorem indexItem_sound (items : List NItem) (jp : Nat) (hjp : jp < items.length) :
    ∀ (es : List String) (m : List (String × List Nat)),
      (∀ e ∈ es, e ∈ (items.getD jp dummyItem).entities) →
      (∀ q ∈ m, ∀ j ∈ q.2, j < items.length ∧ q.1 ∈ (items.getD j dummyItem).entities) →
      ∀ q ∈ indexItem m jp es, ∀ j ∈ q.2,
        j < items.length ∧ q.1 ∈ (items.getD j dummyItem).entities := by
  intro es
  induction es with
  | nil =>
    intro m _ hm
    simpa [indexItem] using hm
  | cons e rest ih =>
    intro m hes hm
    simp only [indexItem, List.foldl_cons]
    refine ih (addIndex m e jp) (fun e' he' => hes e' (List.mem_cons_of_mem _ he')) ?_
    intro q hq j hj
    rcases mem_addIndex m e jp q hq with hq' | ⟨l, hqeq, h2⟩
    · exact hm q hq' j hj
    · subst hqeq
      rcases List.mem_append.1 hj with hj' | hj'
      · rcases h2 with h2 | rfl
        · exact hm (e, l) h2 j hj'
        · simp at hj'
      · have hji : j = jp := by simpa using hj'
        subst hji
        exact ⟨hjp, hes e (List.mem_cons_self _ _)⟩

theorem buildEntityIndex_sound (items : List NItem) :
    ∀ q ∈ buildEntityIndex items, ∀ j ∈ q.2,
      j < items.length ∧ q.1 ∈ (items.getD j dummyItem).entities := by
  suffices h : ∀ (ps : List (Nat × NItem)) (m : List (String × List Nat)),
      (∀ p ∈ ps, p.1 < items.length ∧ items.getD p.1 dummyItem = p.2) →
      (∀ q ∈ m, ∀ j ∈ q.2, j < items.length ∧ q.1 ∈ (items.getD j dummyItem).entities) →
      ∀ q ∈ ps.foldl (fun m p => indexItem m p.1 p.2.entities) m, ∀ j ∈ q.2,
        j < items.length ∧ q.1 ∈ (items.getD j dummyItem).entities by
    refine h items.enum [] ?_ (by simp)
    intro p hp
    have hget : items[p.1]? = some p.2 := List.mem_enum_iff_getElem?.1 hp
    have hget' : items.get? p.1 = some p.2 := by simpa using hget
    obtain ⟨hlt, hv⟩ := List.get?_eq_some.1 hget'
    refine ⟨hlt, ?_⟩
    rw [List.getD_eq_get?, hget']
    rfl
  intro ps
  induction ps with
  | nil =>
    intro m _ hm
    simpa using hm
  | cons p rest ih =>
    intro m hps hm
    simp only [List.foldl_cons]
    refine ih _ (fun p' hp' => hps p' (List.mem_cons_of_mem _ hp')) ?_
    have hp := hps p (List.mem_cons_self _ _)
    refine indexItem_sound items p.1 hp.1 p.2.entities m ?_ hm
    intro e he
    rw [hp.2]
    exact he

theorem addIndex_pairwise_step (m : List (String × List Nat)) (e : String) (k : Nat)
    (done : List String) (hedone : e ∉ done)
    (hm : ∀ q ∈ m, q.2.Pairwise (· < ·) ∧ (∀ j ∈ q.2, j < k + 1) ∧ (k ∈ q.2 → q.1 ∈ done)) :
    ∀ q ∈ addIndex m e k, q.2.Pairwise (· < ·) ∧ (∀ j ∈ q.2, j < k + 1) ∧
      (k ∈ q.2 → q.1 ∈ done ++ [e]) := by
  intro q hq
  rcases mem_addIndex m e k q hq with hq' | ⟨l, hqeq, h2⟩
  · obtain ⟨h1, h2', h3⟩ := hm q hq'
    exact ⟨h1, h2', fun hk => List.mem_append_left _ (h3 hk)⟩
  · subst hqeq
    have hl : l.Pairwise (· < ·) ∧ (∀ j ∈ l, j < k + 1) ∧ (k ∈ l → e ∈ done) := by
      rcases h2 with h2 | rfl
      · exact hm (e, l) h2
      · simp
    have hknotl : k ∉ l := fun hk => hedone (hl.2.2 hk)
    have hlt : ∀ j ∈ l, j < k := by
      intro j hj
      have hle : j ≤ k := Nat.lt_succ_iff.1 (hl.2.1 j hj)
      exact lt_of_le_of_ne hle (fun he => hknotl (he ▸ hj))
    refine ⟨?_, ?_, ?_⟩
    · rw [List.pairwise_append]
      refine ⟨hl.1, List.pairwise_singleton _ _, ?_⟩
      intro a ha b hb
      have hb' : b = k := by simpa using hb
      subst hb'
      exact hlt a ha
    · intro j hj
      rcases List.mem_append.1 hj with hj' | hj'
      · exact hl.2.1 j hj'
      · have : j = k := by simpa using hj'
        omega
    · intro _
      exact List.mem_append_right _ (List.mem_singleton_self e)

theorem indexItem_pairwise (k : Nat) :
    ∀ (es done : List String) (m : List (String × List Nat)),
      (done ++ es).Nodup →
      (∀ q ∈ m, q.2.Pairwise (· < ·) ∧ (∀ j ∈ q.2, j < k + 1) ∧ (k ∈ q.2 → q.1 ∈ done)) →
      ∀ q ∈ indexItem m k es, q.2.Pairwise (· < ·) ∧ (∀ j ∈ q.2, j < k + 1) ∧
        (k ∈ q.2 → q.1 ∈ done ++ es) := by
  intro es
  induction es with
  | nil =>
    intro done m _ hm
    simpa [indexItem] using hm
  | cons e rest ih =>
    intro done m hnd hm
    simp only [indexItem, List.foldl_cons]
    have hedone : e ∉ done := by
      intro he
      exact (List.nodup_append.1 hnd).2.2 he (List.mem_cons_self e rest)
    have hstep := addIndex_pairwise_step m e k done hedone hm
    have hnd' : ((done ++ [e]) ++ rest).Nodup := by
      rw [List.append_assoc]
      simpa using hnd
    intro q hq
    obtain ⟨h1, h2, h3⟩ := ih (done ++ [e]) (addIndex m e k) hnd' hstep q hq
    refine ⟨h1, h2, fun hk => ?_⟩
    have := h3 hk
    rwa [List.append_assoc] at this

theorem buildEntityIndex_pairwise (items : List NItem)
    (hnd : ∀ it ∈ items, it.entities.Nodup) :
    ∀ q ∈ buildEntityIndex items, q.2.Pairwise (· < ·) := by
  suffices h : ∀ (l : List NItem) (k : Nat) (m : List (String × List Nat)),
      (∀ it ∈ l, it.entities.Nodup) →
      (∀ q ∈ m, q.2.Pairwise (· < ·) ∧ ∀ j ∈ q.2, j < k) →
      ∀ q ∈ (List.enumFrom k l).foldl (fun m p => indexItem m p.1 p.2.entities) m,
        q.2.Pairwise (· < ·) by
    intro q hq
    exact h items 0 [] hnd (by simp) q hq
  intro l
  induction l with
  | nil =>
    intro k m _ hm q hq
    exact (hm q (by simpa [List.enumFrom] using hq)).1
  | cons it rest ih =>
    intro k m hndl hm
    simp only [List.enumFrom, List.foldl_cons]
    refine ih (k + 1) (indexItem m k it.entities)
      (fun it' h' => hndl it' (List.mem_cons_of_mem _ h')) ?_
    have hinner := indexItem_pairwise k it.entities [] m
      (by simpa using hndl it (List.mem_cons_self _ _))
      (fun q hq => ⟨(hm q hq).1,
        fun j hj => Nat.lt_succ_of_lt ((hm q hq).2 j hj),
        fun hk => absurd ((hm q hq).2 k hk) (lt_irrefl k)⟩)
    intro q hq
    obtain ⟨h1, h2, _⟩ := hinner q hq
    exact ⟨h1, h2⟩

/-! ## The clustering fold: claimed indices are fresh and cover the clusters -/

theorem clusterFold_none (items : List NItem) (minSize : Nat)
    (ps : List (String × List Nat)) :
    ps.foldl (clusterStep items minSize) none = none := by
  induction ps with
  | nil => rfl
  | cons p rest ih =>
    simp only [List.foldl_cons]
    exact ih

theorem interAll_ne_nil (ls : List (List String)) (h : ls ≠ []) :
    ∃ r, interAll ls = some r := by
  cases ls with
  | nil => exact absurd rfl h
  | cons s rest => exact ⟨rest.foldl listInter s, rfl⟩

theorem clusterFold_inv (items : List NItem) (minSize : Nat) (hmin : 1 ≤ minSize) :
    ∀ (ps : List (String × List Nat)),
      (∀ p ∈ ps, p.2.Nodup ∧ ∀ i ∈ p.2, i < items.length) →
      ∀ (cs : List TopicCluster) (used : List Nat),
        used.Nodup → (∀ i ∈ used, i < items.length) →
        cs.flatMap TopicCluster.items = used.map (fun i => items.getD i dummyItem) →
        ∃ cs' used',
          ps.foldl (clusterStep items minSize) (some (cs, used)) = some (cs', used') ∧
          used'.Nodup ∧ (∀ i ∈ used', i < items.length) ∧
          cs'.flatMap TopicCluster.items = used'.map (fun i => items.getD i dummyItem) := by
  intro ps
  induction ps with
  | nil =>
    intro _ cs used h1 h2 h3
    exact ⟨cs, used, rfl, h1, h2, h3⟩
  | cons p rest ih =>
    intro hps cs used h1 h2 h3
    simp only [List.foldl_cons]
    by_cases hsz : (p.2.filter (fun i => !used.contains i)).length < minSize
    · have hstep : clusterStep items minSize (some (cs, used)) p = some (cs, used) := by
        simp only [clusterStep]
        rw [if_pos hsz]
      rw [hstep]
      exact ih (fun p' hp' => hps p' (List.mem_cons_of_mem _ hp')) cs used h1 h2 h3
    · have hne : p.2.filter (fun i => !used.contains i) ≠ [] := by
        intro h
        refine hsz ?_
        rw [h]
        exact Nat.lt_of_lt_of_le Nat.zero_lt_one hmin
      have hne' : ((p.2.filter (fun i => !used.contains i)).map
          (fun i => items.getD i dummyItem)).map NItem.entities ≠ [] := by
        simp only [ne_eq, List.map_eq_nil_iff]
        exact hne
      obtain ⟨r, hr⟩ := interAll_ne_nil _ hne'
      have hstep : clusterStep items minSize (some (cs, used)) p =
          some (cs ++ [⟨some (pickTopic (if r.isEmpty then [p.1] else r) p.1),
              if r.isEmpty then [p.1] else r,
              (p.2.filter (fun i => !used.contains i)).map
                (fun i => items.getD i dummyItem)⟩],
            used ++ p.2.filter (fun i => !used.contains i)) := by
        simp only [clusterStep]
        rw [if_neg hsz, hr]
      rw [hstep]
      have hpnd := hps p (List.mem_cons_self _ _)
      have havailnd : (p.2.filter (fun i => !used.contains i)).Nodup :=
        List.Nodup.filter _ hpnd.1
      have hdisj : used.Disjoint (p.2.filter (fun i => !used.contains i)) := by
        intro a ha ha'
        have hc := (List.mem_filter.1 ha').2
        rw [show used.contains a = true from List.elem_iff.2 ha] at hc
        simp at hc
      refine ih (fun p' hp' => hps p' (List.mem_cons_of_mem _ hp')) _ _
        (List.Nodup.append h1 havailnd hdisj) ?_ ?_
      · intro i hi
        rcases List.mem_append.1 hi with hi' | hi'
        · exact h2 i hi'
        · exact hpnd.2 i (List.mem_filter.1 hi').1
      · rw [List.flatMap_append, h3, List.map_append]
        simp

/-! ## Range / enumeration bookkeeping for the partition argument -/

theorem getD_range_map (l : List α) (d : α) :
    (List.range l.length).map (fun i => l.getD i d) = l := by
  induction l with
  | nil => rfl
  | cons a t ih =>
    rw [List.length_cons, List.range_succ_eq_map, List.map_cons, List.map_map]
    show a :: (List.range t.length).map (fun i => t.getD i d) = a :: t
    rw [ih]

theorem enum_filter_map_snd (l : List α) (d : α) (q : Nat → Bool) :
    ((l.enum.filter (fun p => q p.1)).map Prod.snd) =
      ((List.range l.length).filter q).map (fun i => l.getD i d) := by
  have h1 : ∀ p ∈ l.enum.filter (fun p => q p.1), Prod.snd p = l.getD p.1 d := by
    intro p hp
    have hp' := (List.mem_filter.1 hp).1
    have hget : l.get? p.1 = some p.2 := by
      simpa using List.mem_enum_iff_getElem?.1 hp'
    rw [List.getD_eq_get?, hget]
    rfl
  rw [List.map_congr_left h1]
  have h2 : (l.enum.filter (fun p => q p.1)).map (fun p => l.getD p.1 d)
      = ((l.enum.filter (fun p => q p.1)).map Prod.fst).map (fun i => l.getD i d) := by
    rw [List.map_map]
    rfl
  rw [h2]
  congr 1
  rw [← List.enum_map_fst l, List.filter_map]
  rfl

theorem used_perm_range_filter (n : Nat) (used : List Nat) (hnd : used.Nodup)
    (hbnd : ∀ i ∈ used, i < n) :
    used.Perm ((List.range n).filter (fun i => used.contains i)) := by
  refine (List.perm_ext_iff_of_nodup hnd (List.Nodup.filter _ (List.nodup_range n))).2 ?_
  intro a
  simp only [List.mem_filter, List.mem_range]
  constructor
  · intro ha
    exact ⟨hbnd a ha, List.elem_iff.2 ha⟩
  · rintro ⟨_, h⟩
    exact List.elem_iff.1 h

/-- The central partition fact: for `min_cluster_size ≥ 1` (any smaller value
can hit the `set.intersection(*[])` `TypeError`) and duplicate-free entity
sets,
`cluster_by_topic` succeeds and the clusters' items, joined, are a permutation
of the input items. -/
theorem clusterByTopic_join_perm (items : List NItem) (minSize : Nat)
    (hmin : 1 ≤ minSize) (hnd : ∀ it ∈ items, it.entities.Nodup) :
    ∃ cs, clusterByTopic items minSize = some cs ∧
      (cs.flatMap TopicCluster.items).Perm items := by
  by_cases hempty : items.isEmpty
  · refine ⟨[], ?_, ?_⟩
    · unfold clusterByTopic
      rw [if_pos hempty]
    · rw [List.isEmpty_iff.1 hempty]
      simp
  · have hps : ∀ p ∈ stableSort (fun a b => decide (b.2.length ≤ a.2.length))
        (buildEntityIndex items), p.2.Nodup ∧ ∀ i ∈ p.2, i < items.length := by
      intro p hp
      have hp' : p ∈ buildEntityIndex items := (mem_stableSort _ p _).1 hp
      refine ⟨?_, fun i hi => (buildEntityIndex_sound items p hp' i hi).1⟩
      exact (buildEntityIndex_pairwise items hnd p hp').imp (fun h => Nat.ne_of_lt h)
    obtain ⟨cs0, used0, hfold, hnodup0, hbnd0, hcov0⟩ :=
      clusterFold_inv items minSize hmin _ hps [] [] (by simp) (by simp) (by simp)
    refine ⟨stableSort clusterLe
      (cs0 ++ (items.enum.filter (fun p => !used0.contains p.1)).map
        (fun p => (⟨none, p.2.entities, [p.2]⟩ : TopicCluster))), ?_, ?_⟩
    · unfold clusterByTopic
      rw [if_neg hempty, hfold]
    · refine (List.Perm.flatMap_right _ (stableSort_perm clusterLe _)).trans ?_
      rw [List.flatMap_append, hcov0]
      have hsingles : ((items.enum.filter (fun p => !used0.contains p.1)).map
          (fun p => (⟨none, p.2.entities, [p.2]⟩ : TopicCluster))).flatMap
            TopicCluster.items
          = (items.enum.filter (fun p => !used0.contains p.1)).map Prod.snd := by
        rw [List.flatMap_map]
        exact (List.map_eq_bind _ _).symm
      rw [hsingles, enum_filter_map_snd items dummyItem (fun i => !used0.contains i)]
      refine (List.Perm.append
        ((used_perm_range_filter items.length used0 hnodup0 hbnd0).map _)
        (List.Perm.refl _)).trans ?_
      rw [← List.map_append]
      refine (List.Perm.map _ (List.filter_append_perm _ _)).trans ?_
      rw [getD_range_map]

/-! ## Demonstration items for the clustering claims -/

def demoA : NItem :=
  ⟨"article", "OpenAI ships a new model", "", "https://a", "Techmeme", ["OpenAI"]⟩

def demoB : NItem :=
  ⟨"article", "OpenAI raises funding", "", "https://b", "TechCrunch", ["OpenAI"]⟩

def demoX : NItem := ⟨"article", "story x", "", "", "", ["X"]⟩

def demoY : NItem := ⟨"article", "story y", "", "", "", ["Y"]⟩

def demoZtop : NItem := ⟨"article", "story z", "", "", "", ["zzzz"]⟩

def demoNoEnt : NItem := ⟨"article", "story f", "", "", "", []⟩

def demoTwoEnt : NItem := ⟨"article", "story d", "", "", "", ["X", "Y"]⟩

/-! ## Claim C1 -/

/-- C1 (counterexample): the claim quantifies over every `minClusterSize`, but
at `minClusterSize = 0` the code can raise: with a single item carrying two
entities, the second entity's index list is fully claimed by the first, the
empty `available_indices` passes the `< 0` size guard, and
`set.intersection(*[])` raises `TypeError` (modelled as `none`), so no cluster
list — and in particular no partition of the input — is produced. -/
theorem clusterByTopic_zero_raises :
    ¬ ∃ cs, clusterByTopic [demoTwoEnt] 0 = some cs ∧
      (cs.flatMap TopicCluster.items).Perm [demoTwoEnt] := by
  rintro ⟨cs, hcs, -⟩
  have h : clusterByTopic [demoTwoEnt] 0 = none := by decide
  rw [h] at hcs
  cases hcs

/-- C1 (amended): for every input sequence of normalized items (whose entity
sets, being sets, are duplicate-free) and every `minClusterSize ≥ 1`,
`cluster` returns a cluster list that partitions the input: the union, as a
multiset, of all clusters' items is a permutation of the input sequence — no
item lost or duplicated. (At `minClusterSize = 0` the code can raise
`TypeError` instead; the counterexample above shows it.) -/
theorem clusterByTopic_partition (items : List NItem) (minSize : Nat)
    (hmin : 1 ≤ minSize) (hnd : ∀ it ∈ items, it.entities.Nodup) :
    ∃ cs, clusterByTopic items minSize = some cs ∧
      (cs.flatMap TopicCluster.items).Perm items :=
  clusterByTopic_join_perm items minSize hmin hnd

theorem clusterByTopic_partition_witness :
    (1 ≤ 2 ∧ (∀ it ∈ [demoA, demoB, demoX], it.entities.Nodup)) ∧
    ∃ cs, clusterByTopic [demoA, demoB, demoX] 2 = some cs ∧
      (cs.flatMap TopicCluster.items).Perm [demoA, demoB, demoX] :=
  ⟨⟨by decide, by decide⟩,
    clusterByTopic_partition [demoA, demoB, demoX] 2 (by decide) (by decide)⟩

/-! ## Claim C4 -/

/-- C4 (counterexample): two inputs that are reorderings of each other (same
items, same entity sets) can produce different outputs: with two items whose
entity sets are disjoint singletons, both become topicless singleton clusters
with equal sort keys, and the stable final sort keeps them in input order, so
the two runs' outputs differ. -/
theorem clusterByTopic_reorder_counterexample :
    ([demoX, demoY].Perm [demoY, demoX]) ∧
    clusterByTopic [demoX, demoY] 2 ≠ clusterByTopic [demoY, demoX] 2 := by
  constructor
  · exact List.Perm.swap demoY demoX []
  · decide

/-- C4 (amended): reorderings of the input may change the output cluster list —
groupings change when distinct entities tie at equal frequency, and the final
order of equal-key clusters follows input order, as the counterexample above
shows. What is preserved under any
reordering (for `minClusterSize ≥ 1` and duplicate-free entity sets) is the
partitioned content: both runs succeed and cover exactly the same multiset of
items, namely the input. Determinism does hold for a fixed input sequence,
`cluster` being a pure function. -/
theorem clusterByTopic_perm_content (l1 l2 : List NItem) (minSize : Nat)
    (hmin : 1 ≤ minSize) (hperm : l1.Perm l2)
    (hnd : ∀ it ∈ l1, it.entities.Nodup) :
    ∃ cs1 cs2, clusterByTopic l1 minSize = some cs1 ∧
      clusterByTopic l2 minSize = some cs2 ∧
      (cs1.flatMap TopicCluster.items).Perm (cs2.flatMap TopicCluster.items) := by
  obtain ⟨cs1, h1, hp1⟩ := clusterByTopic_join_perm l1 minSize hmin hnd
  obtain ⟨cs2, h2, hp2⟩ := clusterByTopic_join_perm l2 minSize hmin
    (fun it hit => hnd it (hperm.mem_iff.2 hit))
  exact ⟨cs1, cs2, h1, h2, hp1.trans (hperm.trans hp2.symm)⟩

theorem clusterByTopic_perm_content_witness :
    (1 ≤ 2 ∧ ([demoA, demoB].Perm [demoB, demoA]) ∧
      (∀ it ∈ [demoA, demoB], it.entities.Nodup)) ∧
    ∃ cs1 cs2, clusterByTopic [demoA, demoB] 2 = some cs1 ∧
      clusterByTopic [demoB, demoA] 2 = some cs2 ∧
      (cs1.flatMap TopicCluster.items).Perm (cs2.flatMap TopicCluster.items) :=
  ⟨⟨by decide, by decide, by decide⟩,
    clusterByTopic_perm_content [demoA, demoB] [demoB, demoA] 2 (by decide)
      (by decide) (by decide)⟩

/-! ## Claim C8 -/

theorem interAll_mem (ls : List (List String)) (r : List String)
    (h : interAll ls = some r) (e : String) (he : e ∈ r) : ∀ l ∈ ls, e ∈ l := by
  cases ls with
  | nil => cases h
  | cons s rest =>
    have hr : r = rest.foldl listInter s := (Option.some.inj h).symm
    subst hr
    have key : ∀ (rest : List (List String)) (s : List String),
        e ∈ rest.foldl listInter s → e ∈ s ∧ ∀ t ∈ rest, e ∈ t := by
      intro rest
      induction rest with
      | nil =>
        intro s hs
        exact ⟨hs, by simp⟩
      | cons t ts ih =>
        intro s hs
        simp only [List.foldl_cons] at hs
        obtain ⟨h1, h2⟩ := ih (listInter s t) hs
        have h1' := List.mem_filter.1 h1
        refine ⟨h1'.1, ?_⟩
        intro t' ht'
        rcases List.mem_cons.1 ht' with rfl | ht''
        · exact List.elem_iff.1 h1'.2
        · exact h2 t' ht''
    obtain ⟨h1, h2⟩ := key rest s he
    intro l hl
    rcases List.mem_cons.1 hl with rfl | hl'
    · exact h1
    · exact h2 l hl'

theorem clusterFold_shape (items : List NItem) (minSize : Nat) :
    ∀ (ps : List (String × List Nat)),
      (∀ p ∈ ps, ∀ i ∈ p.2, p.1 ∈ (items.getD i dummyItem).entities) →
      ∀ (cs : List TopicCluster) (used : List Nat),
        (∀ c ∈ cs, (∀ it ∈ c.items, ∀ e ∈ c.entities, e ∈ it.entities) ∧
          minSize ≤ c.items.length) →
        ∀ (cs' : List TopicCluster) (used' : List Nat),
          ps.foldl (clusterStep items minSize) (some (cs, used)) = some (cs', used') →
          ∀ c ∈ cs', (∀ it ∈ c.items, ∀ e ∈ c.entities, e ∈ it.entities) ∧
            minSize ≤ c.items.length := by
  intro ps
  induction ps with
  | nil =>
    intro _ cs used hcs cs' used' hfold
    injection Option.some.inj hfold with h1 h2
    subst h1
    exact hcs
  | cons p rest ih =>
    intro hps cs used hcs cs' used' hfold
    simp only [List.foldl_cons] at hfold
    by_cases hsz : (p.2.filter (fun i => !used.contains i)).length < minSize
    · have hstep : clusterStep items minSize (some (cs, used)) p = some (cs, used) := by
        simp only [clusterStep]
        rw [if_pos hsz]
      rw [hstep] at hfold
      exact ih (fun p' hp' => hps p' (List.mem_cons_of_mem _ hp')) cs used hcs cs' used' hfold
    · cases havail : p.2.filter (fun i => !used.contains i) with
      | nil =>
        have hstep : clusterStep items minSize (some (cs, used)) p = none := by
          simp only [clusterStep]
          rw [if_neg hsz, havail]
          rfl
        rw [hstep, clusterFold_none] at hfold
        cases hfold
      | cons a as =>
        obtain ⟨r, hr⟩ := interAll_ne_nil
          (((a :: as).map (fun i => items.getD i dummyItem)).map NItem.entities) (by simp)
        have hstep : clusterStep items minSize (some (cs, used)) p =
            some (cs ++ [⟨some (pickTopic (if r.isEmpty then [p.1] else r) p.1),
                if r.isEmpty then [p.1] else r,
                (a :: as).map (fun i => items.getD i dummyItem)⟩],
              used ++ (a :: as)) := by
          simp only [clusterStep]
          rw [if_neg hsz, havail, hr]
        rw [hstep] at hfold
        refine ih (fun p' hp' => hps p' (List.mem_cons_of_mem _ hp')) _ _ ?_ cs' used' hfold
        intro c hc
        rcases List.mem_append.1 hc with hc' | hc'
        · exact hcs c hc'
        · have hceq : c = ⟨some (pickTopic (if r.isEmpty then [p.1] else r) p.1),
              if r.isEmpty then [p.1] else r,
              (a :: as).map (fun i => items.getD i dummyItem)⟩ := by
            simpa using hc'
          subst hceq
          constructor
          · intro it hit e he
            rcases List.mem_map.1 hit with ⟨i, hi, rfl⟩
            have hi2 : i ∈ p.2 := by
              rw [← havail] at hi
              exact (List.mem_filter.1 hi).1
            by_cases hre : r.isEmpty
            · rw [show (⟨some (pickTopic (if r.isEmpty then [p.1] else r) p.1),
                  if r.isEmpty then [p.1] else r,
                  (a :: as).map (fun i => items.getD i dummyItem)⟩ : TopicCluster).entities
                  = if r.isEmpty then [p.1] else r from rfl, if_pos hre] at he
              have : e = p.1 := by simpa using he
              subst this
              exact hps p (List.mem_cons_self _ _) i hi2
            · rw [show (⟨some (pickTopic (if r.isEmpty then [p.1] else r) p.1),
                  if r.isEmpty then [p.1] else r,
                  (a :: as).map (fun i => items.getD i dummyItem)⟩ : TopicCluster).entities
                  = if r.isEmpty then [p.1] else r from rfl, if_neg hre] at he
              exact interAll_mem _ r hr e he _
                (List.mem_map_of_mem NItem.entities
                  (List.mem_map_of_mem (fun i => items.getD i dummyItem) hi))
          · rw [havail] at hsz
            have := Nat.le_of_not_lt hsz
            simpa using this

/-- C8 (amended): in every successful `cluster` output, every item of every
cluster contains every entity of that cluster's `sharedEntities` (for
multi-item clusters this is the claim; for the unclaimed singletons it holds
trivially since their entity set is the item's own). For `minClusterSize ≥ 2`,
every cluster with exactly one item is an unclaimed singleton: its topic is
`none` and its `sharedEntities` is exactly its single item's own entity set.
(At `minClusterSize = 1` a claimed single-item cluster carries a non-`none`
topic, so the claim's "singleton implies topic = none" fails there, as the
separate counterexample theorem shows.) -/
theorem clusterByTopic_shared (items : List NItem) (minSize : Nat)
    (cs : List TopicCluster) (h : clusterByTopic items minSize = some cs) :
    (∀ c ∈ cs, ∀ it ∈ c.items, ∀ e ∈ c.entities, e ∈ it.entities) ∧
    (2 ≤ minSize → ∀ c ∈ cs, c.items.length = 1 →
      c.topic = none ∧ ∃ it, c.items = [it] ∧ c.entities = it.entities) := by
  unfold clusterByTopic at h
  by_cases hempty : items.isEmpty
  · rw [if_pos hempty] at h
    rw [← Option.some.inj h]
    exact ⟨by simp, by simp⟩
  · rw [if_neg hempty] at h
    cases hfold : (stableSort (fun a b => decide (b.2.length ≤ a.2.length))
        (buildEntityIndex items)).foldl (clusterStep items minSize) (some ([], [])) with
    | none =>
      rw [hfold] at h
      cases h
    | some csused =>
      obtain ⟨cs0, used0⟩ := csused
      rw [hfold] at h
      have hps0 : ∀ p ∈ stableSort (fun a b => decide (b.2.length ≤ a.2.length))
          (buildEntityIndex items), ∀ i ∈ p.2, p.1 ∈ (items.getD i dummyItem).entities :=
        fun p hp i hi =>
          (buildEntityIndex_sound items p ((mem_stableSort _ p _).1 hp) i hi).2
      have hshape := clusterFold_shape items minSize _ hps0 [] [] (by simp) cs0 used0 hfold
      rw [← Option.some.inj h]
      constructor
      · intro c hc
        have hc' := (mem_stableSort clusterLe c _).1 hc
        rcases List.mem_append.1 hc' with hc0 | hcsingle
        · exact (hshape c hc0).1
        · rcases List.mem_map.1 hcsingle with ⟨q, _, rfl⟩
          intro it hit e he
          have : it = q.2 := by simpa using hit
          subst this
          exact he
      · intro hmin2 c hc hlen
        have hc' := (mem_stableSort clusterLe c _).1 hc
        rcases List.mem_append.1 hc' with hc0 | hcsingle
        · have := (hshape c hc0).2
          omega
        · rcases List.mem_map.1 hcsingle with ⟨q, _, rfl⟩
          exact ⟨rfl, q.2, rfl, rfl⟩

/-- C8 (counterexample): at `minClusterSize = 1` the code produces a cluster
with exactly one item whose topic is not `none` (it was claimed by its entity,
not emitted by the unclaimed-singleton loop), refuting "every singleton cluster
has `topic = none`". -/
theorem clusterByTopic_singleton_topic_counterexample :
    clusterByTopic [demoX] 1 = some [⟨some "X", ["X"], [demoX]⟩] ∧
    (⟨some "X", ["X"], [demoX]⟩ : TopicCluster).items.length = 1 ∧
    (⟨some "X", ["X"], [demoX]⟩ : TopicCluster).topic ≠ none :=
  ⟨by decide, rfl, by decide⟩

/-- The clusters produced from `[demoA, demoB, demoX]` at the default
`min_cluster_size = 2`: one two-item "OpenAI" cluster and one singleton. -/
def demoOut : List TopicCluster :=
  [⟨some "OpenAI", ["OpenAI"], [demoA, demoB]⟩, ⟨none, ["X"], [demoX]⟩]

theorem clusterByTopic_shared_witness :
    clusterByTopic [demoA, demoB, demoX] 2 = some demoOut ∧
    ((∀ c ∈ demoOut, ∀ it ∈ c.items, ∀ e ∈ c.entities, e ∈ it.entities) ∧
      (2 ≤ 2 → ∀ c ∈ demoOut, c.items.length = 1 →
        c.topic = none ∧ ∃ it, c.items = [it] ∧ c.entities = it.entities)) :=
  ⟨by decide, clusterByTopic_shared [demoA, demoB, demoX] 2 demoOut (by decide)⟩

/-! ## Claim C2 -/

theorem charListLe_total : ∀ (s t : List Char), (charListLe s t || charListLe t s) = true := by
  intro s
  induction s with
  | nil => intro t; simp [charListLe]
  | cons a as ih =>
    intro t
    cases t with
    | nil => simp [charListLe]
    | cons b bs =>
      simp only [charListLe]
      by_cases hab : a < b
      · have hba : ¬ b < a := lt_asymm hab
        simp [hab, hba]
      · by_cases hba : b < a
        · simp [hab, hba]
        · simp only [hab, hba, if_neg, if_pos, ite_false, ite_true]
          simpa using ih bs

theorem charListLe_trans : ∀ (s t u : List Char),
    charListLe s t = true → charListLe t u = true → charListLe s u = true := by
  intro s
  induction s with
  | nil => intro t u _ _; rfl
  | cons a as ih =>
    intro t u h1 h2
    cases t with
    | nil => simp [charListLe] at h1
    | cons b bs =>
      cases u with
      | nil => simp [charListLe] at h2
      | cons c cs =>
        simp only [charListLe] at h1 h2 ⊢
        by_cases hab : a < b
        · by_cases hbc : b < c
          · simp [lt_trans hab hbc]
          · by_cases hcb : c < b
            · rw [if_neg hbc, if_pos hcb] at h2
              cases h2
            · have hbceq : b = c := le_antisymm (not_lt.1 hcb) (not_lt.1 hbc)
              subst hbceq
              simp [hab]
        · by_cases hba : b < a
          · rw [if_neg hab, if_pos hba] at h1
            cases h1
          · rw [if_neg hab, if_neg hba] at h1
            have habeq : a = b := le_antisymm (not_lt.1 hba) (not_lt.1 hab)
            subst habeq
            by_cases hac : a < c
            · simp [hac]
            · by_cases hca : c < a
              · rw [if_neg hac, if_pos hca] at h2
                cases h2
              · rw [if_neg hac, if_neg hca] at h2
                rw [if_neg hac, if_neg hca]
                exact ih bs cs h1 h2

theorem strLe_total (s t : String) : (strLe s t || strLe t s) = true :=
  charListLe_total s.toList t.toList

theorem strLe_trans (s t u : String) (h1 : strLe s t = true) (h2 : strLe t u = true) :
    strLe s u = true :=
  charListLe_trans s.toList t.toList u.toList h1 h2

theorem clusterLe_trans (c d e : TopicCluster)
    (h1 : clusterLe c d = true) (h2 : clusterLe d e = true) : clusterLe c e = true := by
  unfold clusterLe at h1 h2 ⊢
  by_cases hcd : c.items.length = d.items.length
  · rw [if_pos hcd] at h1
    by_cases hde : d.items.length = e.items.length
    · rw [if_pos hde] at h2
      rw [if_pos (hcd.trans hde)]
      exact strLe_trans _ _ _ h1 h2
    · rw [if_neg hde] at h2
      have he := of_decide_eq_true h2
      rw [if_neg (by omega)]
      exact decide_eq_true (by omega)
  · rw [if_neg hcd] at h1
    have hd := of_decide_eq_true h1
    by_cases hde : d.items.length = e.items.length
    · rw [if_pos hde] at h2
      rw [if_neg (by omega)]
      exact decide_eq_true (by omega)
    · rw [if_neg hde] at h2
      have he := of_decide_eq_true h2
      rw [if_neg (by omega)]
      exact decide_eq_true (by omega)

theorem clusterLe_total (c d : TopicCluster) : (clusterLe c d || clusterLe d c) = true := by
  unfold clusterLe
  by_cases h : c.items.length = d.items.length
  · rw [if_pos h, if_pos h.symm]
    exact strLe_total _ _
  · rw [if_neg h, if_neg (Ne.symm h)]
    simp only [Bool.or_eq_true, decide_eq_true_eq]
    omega

/-- C2 (amended): every successful `cluster` output is sorted by the key
`(-item count, topic label or the sentinel "zzz")`: any earlier cluster has at
least as many items as any later one (so multi-item clusters precede
singletons and a 3-item cluster precedes a 2-item cluster precedes any
singleton), and among equal item counts the topic keys — the label, or the
sentinel `"zzz"` when the topic is missing — ascend in Python's code-point
string order. Topicless clusters therefore follow labeled ones exactly when
every label precedes `"zzz"` (true of every extracted entity, which starts
with an upper-case letter or is a dictionary canonical name); a hypothetical
label above the sentinel would sort after topicless clusters instead, as the
separate counterexample theorem shows. -/
theorem clusterByTopic_sorted (items : List NItem) (minSize : Nat)
    (cs : List TopicCluster) (h : clusterByTopic items minSize = some cs) :
    cs.Pairwise (fun c d => d.items.length ≤ c.items.length ∧
      (c.items.length = d.items.length →
        strLe (c.topic.getD "zzz") (d.topic.getD "zzz") = true)) := by
  unfold clusterByTopic at h
  by_cases hempty : items.isEmpty
  · rw [if_pos hempty] at h
    rw [← Option.some.inj h]
    exact List.Pairwise.nil
  · rw [if_neg hempty] at h
    cases hfold : (stableSort (fun a b => decide (b.2.length ≤ a.2.length))
        (buildEntityIndex items)).foldl (clusterStep items minSize) (some ([], [])) with
    | none =>
      rw [hfold] at h
      cases h
    | some csused =>
      obtain ⟨cs0, used0⟩ := csused
      rw [hfold] at h
      rw [← Option.some.inj h]
      have hpair := stableSort_pairwise clusterLe clusterLe_trans clusterLe_total
        (cs0 ++ (items.enum.filter (fun p => !used0.contains p.1)).map
          (fun p => (⟨none, p.2.entities, [p.2]⟩ : TopicCluster)))
      refine hpair.imp ?_
      intro c d hcd
      unfold clusterLe at hcd
      by_cases hl : c.items.length = d.items.length
      · rw [if_pos hl] at hcd
        exact ⟨le_of_eq hl.symm, fun _ => hcd⟩
      · rw [if_neg hl] at hcd
        have := of_decide_eq_true hcd
        exact ⟨le_of_lt this, fun he => absurd he hl⟩

/-- C2 (counterexample): the claim's "topicless clusters sort after labeled
ones at equal item counts" fails when a topic label exceeds the sentinel
`"zzz"`: at `minClusterSize = 1`, an item with entity `"zzzz"` forms a labeled
single-item cluster, an entity-less item a topicless singleton of the same
size, and the topicless cluster sorts first (`"zzz" < "zzzz"`). -/
theorem clusterByTopic_zzz_counterexample :
    clusterByTopic [demoZtop, demoNoEnt] 1 =
      some [⟨none, [], [demoNoEnt]⟩, ⟨some "zzzz", ["zzzz"], [demoZtop]⟩] ∧
    (⟨none, [], [demoNoEnt]⟩ : TopicCluster).items.length =
      (⟨some "zzzz", ["zzzz"], [demoZtop]⟩ : TopicCluster).items.length ∧
    (⟨none, [], [demoNoEnt]⟩ : TopicCluster).topic = none ∧
    (⟨some "zzzz", ["zzzz"], [demoZtop]⟩ : TopicCluster).topic ≠ none :=
  ⟨by decide, rfl, rfl, by decide⟩

theorem clusterByTopic_sorted_witness :
    clusterByTopic [demoA, demoB, demoX] 2 = some demoOut ∧
    demoOut.Pairwise (fun c d => d.items.length ≤ c.items.length ∧
      (c.items.length = d.items.length →
        strLe (c.topic.getD "zzz") (d.topic.getD "zzz") = true)) :=
  ⟨by decide, clusterByTopic_sorted [demoA, demoB, demoX] 2 demoOut (by decide)⟩
